import Mathlib

/-!
Verification of the day23 "amphipod organizing" core (state encoding, move
generator, uniform-cost search) against its specification.

The Rust source represents a board as `data : [u8; N]` with `N = 11 + 4 * D`
(`D` = room depth): indices `0..=10` are the hallway (2, 4, 6, 8 are room
entrances and never stopping points), indices `>= 11` are room slots, room `r`
occupying `11 + r*D ..< 11 + (r+1)*D`.  Cell values: `0` = empty, `1..=4` =
amphipod kinds A..D.

We embed states as `List ℕ` of length `11 + 4*D`.  Machine arithmetic on
`usize`/`u64` is modelled as `ℕ`; at the two spots where the source can
underflow/overflow a 64-bit word in a way that matters (the `- 1` applied to
the occupied-depth of a room, and the sums that wrapped value flows into), we
use explicit wrapping operations `wsub`/`wadd` mod `2^64`, matching
release-mode semantics of the source.
-/

namespace Day23

/-- Modulus of 64-bit machine words (`usize`/`u64`). -/
def W : ℕ := 2 ^ 64

/-- Source `u64::MAX`. -/
def U64MAX : ℕ := 2 ^ 64 - 1

theorem W_pos : 0 < W := by norm_num [W]

theorem U64MAX_lt_W : U64MAX < W := by norm_num [U64MAX, W]

/-- Wrapping (release-mode) subtraction of 64-bit machine words.  Assumes
`b ≤ 2^64`, which holds at its use sites (`b = 1`). -/
def wsub (a b : ℕ) : ℕ := (a + (W - b)) % W

/-- Wrapping (release-mode) addition of 64-bit machine words. -/
def wadd (a b : ℕ) : ℕ := (a + b) % W

/-- Source `self.data[i]` (cells out of range read as `0`; the source would panic,
and all theorems below restrict attention to in-range accesses). -/
def cell (s : List ℕ) (i : ℕ) : ℕ := s.getD i 0

/-- Source `State::VALID_HALLWAY_IDX`. -/
def VALID_HALLWAY_IDX : List ℕ := [0, 1, 3, 5, 7, 9, 10]

/-- Source `State::COSTS`. -/
def COSTS : List ℕ := [1, 10, 100, 1000]

/-- Source `room_first_idx` from `State::next_moves`: first data index of room `r`. -/
def room_first_idx (D r : ℕ) : ℕ := 11 + r * D

/-- Source `&self.data[11 + room*D .. 11 + (room+1)*D]`: the cells of room `r`,
top (shallow) first. -/
def room_data (D : ℕ) (s : List ℕ) (r : ℕ) : List ℕ :=
  (s.drop (room_first_idx D r)).take D

/-- Source `room.iter().position(|s| *s > 0)`: depth of the topmost occupied slot. -/
def room_depth_occupied (D : ℕ) (s : List ℕ) (r : ℕ) : Option ℕ :=
  (room_data D s r).findIdx? (fun v => decide (0 < v))

/-- The inclusive corridor range `min a b ..= max a b` as a list of indices. -/
def corridor_path (a b : ℕ) : List ℕ :=
  List.range' (min a b) (max a b + 1 - min a b)

/-- Source `valid_room` in `State::next_moves`: destination room of the amphipod
standing at hallway index `p` (its kind minus one). -/
def valid_room (s : List ℕ) (p : ℕ) : ℕ := cell s p - 1

/-- Source `valid_room_entrance = 2 + 2 * valid_room` (a `u8` computation, hence the
wrap at 256; for the legal kinds `1..=4` the wrap never fires). -/
def valid_room_entrance (s : List ℕ) (p : ℕ) : ℕ := (2 + 2 * valid_room s p) % 256

/-- Source `path_unobstructed` for a hallway→room move: every corridor cell between
`p` and the destination room entrance (both ends included) is empty, except
`p` itself. -/
def hallway_path_unobstructed (s : List ℕ) (p : ℕ) : Bool :=
  (corridor_path p (valid_room_entrance s p)).all
    (fun i => i == p || cell s i == 0)

/-- Source `room_ready`: the destination room holds only empty slots or amphipods of
the same kind as the one at hallway index `p`. -/
def hallway_room_ready (D : ℕ) (s : List ℕ) (p : ℕ) : Bool :=
  (room_data D s (valid_room s p)).all (fun pod => pod == 0 || pod == cell s p)

/-- Source `depth_to_move`: depth of the slot targeted by a hallway→room move
(`usize` subtraction, hence the wrap). -/
def depth_to_move (D : ℕ) (s : List ℕ) (p : ℕ) : ℕ :=
  wsub ((room_depth_occupied D s (valid_room s p)).getD D) 1

/-- The hallway→room part of `State::next_moves` for a single hallway index
`p`: `some (src, dst, steps)` when a move from `p` is generated. -/
def hallway_move (D : ℕ) (s : List ℕ) (p : ℕ) : Option (ℕ × ℕ × ℕ) :=
  if 0 < cell s p then
    if hallway_path_unobstructed s p && hallway_room_ready D s p then
      some (p, wadd (room_first_idx D (valid_room s p)) (depth_to_move D s p),
            wadd (corridor_path p (valid_room_entrance s p)).length
              (depth_to_move D s p))
    else none
  else none

/-- Source `2 + room_idx * 2`: hallway entrance of the source room. -/
def src_entrance (r : ℕ) : ℕ := 2 + r * 2

/-- Source `2 + target_room * 2` for the pod at depth `depth` of room `r` (a `u8`
computation, hence the wrap at 256, which never fires for legal kinds). -/
def tgt_entrance (D : ℕ) (s : List ℕ) (r depth : ℕ) : ℕ :=
  (2 + (cell s (room_first_idx D r + depth) - 1) * 2) % 256

/-- One candidate room→hallway move of `State::next_moves`: pod at depth
`depth` of room `r` moving to hallway index `h`. -/
def room_move_one (D : ℕ) (s : List ℕ) (r depth h : ℕ) : Option (ℕ × ℕ × ℕ) :=
  if (!((decide (min (src_entrance r) (tgt_entrance D s r depth) ≤ h) &&
          decide (h ≤ max (src_entrance r) (tgt_entrance D s r depth))) &&
        decide (2 < (corridor_path h (src_entrance r)).length))) &&
      (corridor_path h (src_entrance r)).all (fun i => cell s i == 0) then
    some (room_first_idx D r + depth, h,
      (corridor_path h (src_entrance r)).length + depth)
  else none

/-- The room→hallway part of `State::next_moves` for a single room index. -/
def room_moves (D : ℕ) (s : List ℕ) (room_idx : ℕ) : List (ℕ × ℕ × ℕ) :=
  match room_depth_occupied D s room_idx with
  | none => []
  | some room_pod_depth =>
    VALID_HALLWAY_IDX.filterMap (room_move_one D s room_idx room_pod_depth)

/-- Source `State::next_moves`: all generated `(source, destination, steps)` triples,
hallway→room moves first, then room→hallway moves for rooms `0..4`. -/
def next_moves (D : ℕ) (s : List ℕ) : List (ℕ × ℕ × ℕ) :=
  VALID_HALLWAY_IDX.filterMap (hallway_move D s) ++
    (List.range 4).flatMap (room_moves D s)

/-- Source `new_data.swap(i, j)`. -/
def list_swap (l : List ℕ) (i j : ℕ) : List ℕ :=
  (l.set i (l.getD j 0)).set j (l.getD i 0)

/-- Source `State::apply`: the successor state and the cost of a move. -/
def apply_move (s : List ℕ) (step : ℕ × ℕ × ℕ) : List ℕ × ℕ :=
  let cost := COSTS.getD (wsub (cell s step.1) 1) 0 * step.2.2
  (list_swap s step.1 step.2.1, cost)

/-- Source `State::is_complete`. -/
def is_complete (D : ℕ) (s : List ℕ) : Bool :=
  (List.range 4).all (fun room => (room_data D s room).all
    (fun v => v == room + 1))

/-- Characters kept by the parse loop: `s.chars().filter(|c| ('A'..='D').contains(c))`. -/
def letters_of (input : List Char) : List Char :=
  input.filter (fun c => decide ('A' ≤ c) && decide (c ≤ 'D'))

/-- The parse loop of `State::from_str`: write the `idx`-th kept character (as
value 1..4) at data index `11 + D * (idx % 4) + idx / 4`.  The source indexes a
fixed array, so a write at an out-of-bounds index panics; `none` models that
panic (it is not an `Err` return). -/
def write_letters (D idx : ℕ) (data : List ℕ) : List Char → Option (List ℕ)
  | [] => some data
  | c :: rest =>
    if 11 + D * (idx % 4) + idx / 4 < data.length then
      write_letters D (idx + 1)
        (data.set (11 + D * (idx % 4) + idx / 4) (c.toNat - 'A'.toNat + 1)) rest
    else
      none

/-- Source `State::from_str` (error type `Infallible`, embedded as `Empty`):
run the parse loop on an all-empty board.  `some (Except.ok s)` is a normal
return, `none` is a panic on an out-of-bounds write (which happens once the
kept characters outnumber the board's room slots); `some (Except.error e)` is
impossible since `Empty` is uninhabited. -/
def from_str (D : ℕ) (input : List Char) : Option (Except Empty (List ℕ)) :=
  (write_letters D 0 (List.replicate (11 + 4 * D) 0) (letters_of input)).map
    Except.ok

/-! ## Basic facts about the embedding -/

theorem cell_eq_getElem {s : List ℕ} {i : ℕ} (h : i < s.length) :
    cell s i = s[i] := by
  simp [cell, List.getD_eq_getElem?_getD, List.getElem?_eq_getElem h]

theorem cell_lt_of_forall {s : List ℕ} (hc : ∀ x ∈ s, x < 5) (i : ℕ) :
    cell s i < 5 := by
  by_cases h : i < s.length
  · rw [cell_eq_getElem h]
    exact hc _ (List.getElem_mem h)
  · simp only [cell, List.getD_eq_getElem?_getD]
    rw [List.getElem?_eq_none (by omega)]
    norm_num

theorem room_data_length {D : ℕ} {s : List ℕ} {r : ℕ}
    (hlen : s.length = 11 + 4 * D) (hr : r < 4) :
    (room_data D s r).length = D := by
  simp only [room_data, List.length_take, List.length_drop, hlen, room_first_idx]
  have : r * D + D ≤ 4 * D := by nlinarith
  omega

theorem room_data_eq {D : ℕ} {s : List ℕ} {r : ℕ}
    (hlen : s.length = 11 + 4 * D) (hr : r < 4) :
    room_data D s r =
      (List.range D).map (fun j => cell s (room_first_idx D r + j)) := by
  apply List.ext_getElem
  · simp [room_data_length hlen hr]
  · intro i h1 h2
    have hiD : i < D := by simpa [room_data_length hlen hr] using h1
    have hidx : room_first_idx D r + i < s.length := by
      simp only [room_first_idx, hlen]
      have : r * D + i < 4 * D := by nlinarith
      omega
    simp only [room_data, List.getElem_take, List.getElem_drop, List.getElem_map,
      List.getElem_range]
    rw [cell_eq_getElem hidx]

theorem room_data_cell {D : ℕ} {s : List ℕ} {r j : ℕ}
    (hlen : s.length = 11 + 4 * D) (hr : r < 4)
    (hj : j < (room_data D s r).length) :
    (room_data D s r)[j] = cell s (room_first_idx D r + j) := by
  simp [room_data_eq hlen hr]

theorem mem_room_data_iff {D : ℕ} {s : List ℕ} {r : ℕ}
    (hlen : s.length = 11 + 4 * D) (hr : r < 4) {v : ℕ} :
    v ∈ room_data D s r ↔ ∃ j < D, cell s (room_first_idx D r + j) = v := by
  rw [room_data_eq hlen hr]
  simp

/-! ## Well-formed (game-plausible) states

The struct comment in the source fixes the cell alphabet (`0` empty, `1..=4`
the amphipod kinds), a parse of a well-shaped diagram puts at most `D`
amphipods of each kind on the board, and rooms fill bottom-up, so reachable
game states have their occupied room slots settled at the bottom.  Several
claims are false for physically meaningless boards outside this set (see the
counterexamples below), and are proved here restricted to it. -/

/-- Rooms are settled: below an occupied slot every slot is occupied. -/
def Settled (D : ℕ) (s : List ℕ) : Prop :=
  ∀ r < 4, ∀ i < D, ∀ j < D,
    i ≤ j → cell s (room_first_idx D r + i) ≠ 0 →
      cell s (room_first_idx D r + j) ≠ 0

/-- Game-plausible states: correct length, cells in `0..=4`, at most `D`
amphipods of each kind, rooms settled, and a machine-representable board
(a `[u8; N]` array's length is below `2^64`). -/
def WellFormed (D : ℕ) (s : List ℕ) : Prop :=
  s.length = 11 + 4 * D ∧ (∀ x ∈ s, x < 5) ∧
    (∀ k < 5, k ≠ 0 → s.count k ≤ D) ∧ Settled D s ∧ 11 + 4 * D < W

instance (D : ℕ) (s : List ℕ) : Decidable (Settled D s) := by
  unfold Settled
  exact Nat.decidableBallLT _ _

instance (D : ℕ) (s : List ℕ) : Decidable (WellFormed D s) := by
  unfold WellFormed
  infer_instance

/-! ## Counting and swapping -/

theorem count_set_add {l : List ℕ} {i a k : ℕ} (h : i < l.length) :
    (l.set i a).count k + (if l[i] = k then 1 else 0) =
      l.count k + (if a = k then 1 else 0) := by
  induction l generalizing i with
  | nil => simp at h
  | cons x xs ih =>
    cases i with
    | zero =>
      simp only [List.set_cons_zero, List.count_cons, List.getElem_cons_zero]
      split_ifs <;> simp_all <;> omega
    | succ i =>
      have hi : i < xs.length := by simpa using h
      have := ih hi
      simp only [List.set_cons_succ, List.count_cons, List.getElem_cons_succ]
      split_ifs <;> simp_all <;> omega

theorem count_list_swap {l : List ℕ} {i j : ℕ} (hi : i < l.length)
    (hj : j < l.length) (k : ℕ) : (list_swap l i j).count k = l.count k := by
  unfold list_swap
  rw [List.getD_eq_getElem l 0 hi, List.getD_eq_getElem l 0 hj]
  have hj' : j < (l.set i l[j]).length := by simpa using hj
  have h2 := count_set_add (l := l) (i := i) (a := l[j]) (k := k) hi
  have h1 := count_set_add (l := l.set i l[j]) (i := j) (a := l[i]) (k := k) hj'
  rcases eq_or_ne i j with rfl | hij
  · have he : (l.set i l[i])[i] = l[i] := List.getElem_set_self hj'
    rw [he] at h1
    split_ifs at h1 h2 <;> omega
  · have he : (l.set i l[j])[j] = l[j] := List.getElem_set_ne hij hj'
    rw [he] at h1
    split_ifs at h1 h2 <;> omega

theorem length_list_swap (l : List ℕ) (i j : ℕ) :
    (list_swap l i j).length = l.length := by
  simp [list_swap]

theorem length_apply_move (s : List ℕ) (m : ℕ × ℕ × ℕ) :
    (apply_move s m).1.length = s.length := by
  simp [apply_move, length_list_swap]

theorem cells_list_swap {l : List ℕ} (hc : ∀ x ∈ l, x < 5) (i j : ℕ) :
    ∀ x ∈ list_swap l i j, x < 5 := by
  unfold list_swap
  intro x hx
  rcases List.mem_or_eq_of_mem_set hx with hx' | rfl
  · rcases List.mem_or_eq_of_mem_set hx' with hx'' | rfl
    · exact hc _ hx''
    · exact cell_lt_of_forall hc j
  · exact cell_lt_of_forall hc i

theorem cells_apply_move {s : List ℕ} (hc : ∀ x ∈ s, x < 5) (m : ℕ × ℕ × ℕ) :
    ∀ x ∈ (apply_move s m).1, x < 5 := by
  simpa [apply_move] using cells_list_swap hc m.1 m.2.1

/-! ## Membership in the generated move list -/

theorem mem_next_moves {D : ℕ} {s : List ℕ} {m : ℕ × ℕ × ℕ} :
    m ∈ next_moves D s ↔
      (∃ p ∈ VALID_HALLWAY_IDX, hallway_move D s p = some m) ∨
        ∃ r < 4, m ∈ room_moves D s r := by
  simp [next_moves, List.mem_filterMap, List.mem_flatMap, List.mem_range]

theorem hallway_path_unobstructed_iff {s : List ℕ} {p : ℕ} :
    hallway_path_unobstructed s p = true ↔
      ∀ i ∈ corridor_path p (valid_room_entrance s p), i = p ∨ cell s i = 0 := by
  unfold hallway_path_unobstructed
  rw [List.all_eq_true]
  constructor
  · intro h i hi
    simpa [beq_iff_eq] using h i hi
  · intro h i hi
    simpa [beq_iff_eq] using h i hi

theorem hallway_room_ready_iff {D : ℕ} {s : List ℕ} {p : ℕ} :
    hallway_room_ready D s p = true ↔
      ∀ v ∈ room_data D s (valid_room s p), v = 0 ∨ v = cell s p := by
  unfold hallway_room_ready
  rw [List.all_eq_true]
  constructor
  · intro h v hv
    simpa [beq_iff_eq] using h v hv
  · intro h v hv
    simpa [beq_iff_eq] using h v hv

theorem hallway_move_eq_some {D : ℕ} {s : List ℕ} {p : ℕ} {m : ℕ × ℕ × ℕ} :
    hallway_move D s p = some m ↔
      0 < cell s p ∧
        (∀ i ∈ corridor_path p (valid_room_entrance s p), i = p ∨ cell s i = 0) ∧
        (∀ v ∈ room_data D s (valid_room s p), v = 0 ∨ v = cell s p) ∧
        m = (p,
          wadd (room_first_idx D (valid_room s p)) (depth_to_move D s p),
          wadd (corridor_path p (valid_room_entrance s p)).length
            (depth_to_move D s p)) := by
  unfold hallway_move
  split_ifs with h1 h2
  · rw [Bool.and_eq_true, hallway_path_unobstructed_iff, hallway_room_ready_iff] at h2
    simp only [Option.some.injEq]
    constructor
    · intro hm
      exact ⟨h1, h2.1, h2.2, hm.symm⟩
    · rintro ⟨-, -, -, rfl⟩
      rfl
  · rw [Bool.and_eq_true, hallway_path_unobstructed_iff, hallway_room_ready_iff] at h2
    constructor
    · rintro ⟨⟩
    · rintro ⟨-, hpath, hroom, -⟩
      exact absurd ⟨hpath, hroom⟩ h2
  · constructor
    · rintro ⟨⟩
    · rintro ⟨h, -⟩
      exact absurd h h1

theorem room_move_one_eq_some {D : ℕ} {s : List ℕ} {r depth h : ℕ}
    {m : ℕ × ℕ × ℕ} :
    room_move_one D s r depth h = some m ↔
      ¬((min (src_entrance r) (tgt_entrance D s r depth) ≤ h ∧
          h ≤ max (src_entrance r) (tgt_entrance D s r depth)) ∧
        2 < (corridor_path h (src_entrance r)).length) ∧
        (∀ i ∈ corridor_path h (src_entrance r), cell s i = 0) ∧
        m = (room_first_idx D r + depth, h,
          (corridor_path h (src_entrance r)).length + depth) := by
  unfold room_move_one
  have hdec : (decide ((min (src_entrance r) (tgt_entrance D s r depth) ≤ h ∧
      h ≤ max (src_entrance r) (tgt_entrance D s r depth)) ∧
      2 < (corridor_path h (src_entrance r)).length)) =
      (decide (min (src_entrance r) (tgt_entrance D s r depth) ≤ h) &&
        decide (h ≤ max (src_entrance r) (tgt_entrance D s r depth)) &&
        decide (2 < (corridor_path h (src_entrance r)).length)) := by
    rw [Bool.decide_and, Bool.decide_and]
  rw [← hdec]
  split_ifs with hg
  · rw [Bool.and_eq_true, Bool.not_eq_true', decide_eq_false_iff_not,
      List.all_eq_true] at hg
    simp only [Option.some.injEq]
    constructor
    · intro hm
      exact ⟨hg.1, fun i hi => by simpa [beq_iff_eq] using hg.2 i hi, hm.symm⟩
    · rintro ⟨-, -, rfl⟩
      rfl
  · rw [Bool.and_eq_true, Bool.not_eq_true', decide_eq_false_iff_not,
      List.all_eq_true] at hg
    constructor
    · rintro ⟨⟩
    · rintro ⟨hnot, hpath, -⟩
      exact absurd ⟨hnot, fun i hi => by simpa [beq_iff_eq] using hpath i hi⟩ hg

theorem mem_room_moves {D : ℕ} {s : List ℕ} {r : ℕ} {m : ℕ × ℕ × ℕ} :
    m ∈ room_moves D s r ↔
      ∃ depth, room_depth_occupied D s r = some depth ∧
        ∃ h ∈ VALID_HALLWAY_IDX, room_move_one D s r depth h = some m := by
  unfold room_moves
  cases hocc : room_depth_occupied D s r with
  | none => simp
  | some depth => simp [List.mem_filterMap]

/-! ## Arithmetic on wrapped words in the in-range regime -/

theorem wadd_small {a b : ℕ} (h : a + b < W) : wadd a b = a + b :=
  Nat.mod_eq_of_lt h

theorem wsub_one {a : ℕ} (h1 : 1 ≤ a) (h2 : a ≤ W) : wsub a 1 = a - 1 := by
  unfold wsub
  have hW : 0 < W := W_pos
  have : a + (W - 1) = (a - 1) + W := by omega
  rw [this, Nat.add_mod_right]
  exact Nat.mod_eq_of_lt (by omega)

theorem wsub_zero_one : wsub 0 1 = W - 1 := by
  unfold wsub
  have := W_pos
  rw [Nat.zero_add]
  exact Nat.mod_eq_of_lt (by omega)

/-! ## Facts about the topmost occupied slot -/

theorem room_depth_occupied_some {D : ℕ} {s : List ℕ} {r e : ℕ}
    (hlen : s.length = 11 + 4 * D) (hr : r < 4)
    (h : room_depth_occupied D s r = some e) :
    e < D ∧ cell s (room_first_idx D r + e) ≠ 0 ∧
      ∀ j < e, cell s (room_first_idx D r + j) = 0 := by
  unfold room_depth_occupied at h
  rw [List.findIdx?_eq_some_iff_getElem] at h
  obtain ⟨helt, hpe, hprev⟩ := h
  have heD : e < D := by rwa [room_data_length hlen hr] at helt
  refine ⟨heD, ?_, ?_⟩
  · have hrd := room_data_cell hlen hr helt
    rw [hrd] at hpe
    have : 0 < cell s (room_first_idx D r + e) := by simpa using hpe
    omega
  · intro j hj
    have hjD : j < D := lt_trans hj heD
    have := hprev j hj
    rw [room_data_cell hlen hr] at this
    simpa using this

theorem room_depth_occupied_none {D : ℕ} {s : List ℕ} {r : ℕ}
    (hlen : s.length = 11 + 4 * D) (hr : r < 4)
    (h : room_depth_occupied D s r = none) :
    ∀ j < D, cell s (room_first_idx D r + j) = 0 := by
  unfold room_depth_occupied at h
  rw [List.findIdx?_eq_none_iff] at h
  intro j hj
  have := h _ ((mem_room_data_iff hlen hr).2 ⟨j, hj, rfl⟩)
  simpa using this

/-! ## Counting amphipods of one kind -/

theorem count_ge_room_succ {D : ℕ} {s : List ℕ}
    (hlen : s.length = 11 + 4 * D) {r : ℕ} (hr : r < 4) {p k : ℕ}
    (hp : p < 11) (hpk : cell s p = k) (hk : k ≠ 0)
    (hall : ∀ j < D, cell s (room_first_idx D r + j) = k) :
    D + 1 ≤ s.count k := by
  have h11 : 11 ≤ s.length := by omega
  have hc : (s.take 11).count k + (s.drop 11).count k = s.count k := by
    rw [← List.count_append, List.take_append_drop]
  have hmem : k ∈ s.take 11 := by
    have hlt : p < (s.take 11).length := by
      rw [List.length_take]
      omega
    have h1 : (s.take 11)[p] = k := by
      rw [List.getElem_take, ← cell_eq_getElem (by omega)]
      exact hpk
    exact h1 ▸ List.getElem_mem hlt
  have h1 : 1 ≤ (s.take 11).count k := List.count_pos_iff.2 hmem
  set X := s.drop 11 with hX
  have hXD : (X.drop (r * D)).take D = room_data D s r := by
    rw [hX, List.drop_drop]
    rfl
  have hsplit1 : (X.take (r * D)).count k + (X.drop (r * D)).count k
      = X.count k := by
    rw [← List.count_append, List.take_append_drop]
  have hsplit2 : ((X.drop (r * D)).take D).count k +
      ((X.drop (r * D)).drop D).count k = (X.drop (r * D)).count k := by
    rw [← List.count_append, List.take_append_drop]
  have hfull : ((X.drop (r * D)).take D).count k = D := by
    rw [hXD]
    have : (room_data D s r).count k = (room_data D s r).length := by
      rw [List.count_eq_length]
      intro b hb
      obtain ⟨j, hj, rfl⟩ := (mem_room_data_iff hlen hr).1 hb
      exact (hall j hj).symm
    rw [this, room_data_length hlen hr]
  omega

/-! ## Nondegeneracy of hallway→room moves on well-formed states -/

theorem nondegenerate_hallway {D : ℕ} {s : List ℕ} (hwf : WellFormed D s)
    {p : ℕ} (hp : p < 11) (hocc : cell s p ≠ 0)
    (hready : ∀ v ∈ room_data D s (valid_room s p), v = 0 ∨ v = cell s p) :
    (room_depth_occupied D s (valid_room s p) = none ∧ 1 ≤ D) ∨
      ∃ e, room_depth_occupied D s (valid_room s p) = some e ∧ 1 ≤ e ∧ e < D := by
  obtain ⟨hlen, hcells, hcount, hsettled, hW⟩ := hwf
  have hk5 : cell s p < 5 := cell_lt_of_forall hcells p
  have hvr : valid_room s p < 4 := by
    unfold valid_room
    omega
  have hcnt : s.count (cell s p) ≤ D := hcount _ hk5 hocc
  cases hoccd : room_depth_occupied D s (valid_room s p) with
  | none =>
    left
    refine ⟨rfl, ?_⟩
    have hmem : cell s p ∈ s := by
      have hlt : p < s.length := by omega
      rw [cell_eq_getElem hlt]
      exact List.getElem_mem hlt
    have := List.count_pos_iff.2 hmem
    omega
  | some e =>
    right
    obtain ⟨heD, hne, hzero⟩ := room_depth_occupied_some hlen hvr hoccd
    refine ⟨e, rfl, ?_, heD⟩
    by_contra he0
    push_neg at he0
    interval_cases e
    have hallk : ∀ j < D, cell s (room_first_idx D (valid_room s p) + j)
        = cell s p := by
      intro j hj
      have hne' : cell s (room_first_idx D (valid_room s p) + j) ≠ 0 := by
        rcases Nat.eq_zero_or_pos j with rfl | hpos
        · simpa using hne
        · exact hsettled _ hvr 0 (by omega) j hj (by omega) (by simpa using hne)
      have hmem : cell s (room_first_idx D (valid_room s p) + j)
          ∈ room_data D s (valid_room s p) :=
        (mem_room_data_iff hlen hvr).2 ⟨j, hj, rfl⟩
      rcases hready _ hmem with h0 | hk
      · exact absurd h0 hne'
      · exact hk
    have := count_ge_room_succ hlen hvr hp rfl hocc hallk
    omega

/-! ## Spec-side predicates (formalizing the specification's wording) -/

/-- Spec-side: every corridor cell between `p` and the entrance `e` (other
than `p` itself, and including the entrance that must be crossed) is empty. -/
def spec_path_clear (s : List ℕ) (p e : ℕ) : Prop :=
  ∀ i ∈ corridor_path p e, i ≠ p → cell s i = 0

/-- Spec-side: room `r` contains only empty slots or amphipods of kind `k`. -/
def spec_room_ready (D : ℕ) (s : List ℕ) (r k : ℕ) : Prop :=
  ∀ j < D, cell s (room_first_idx D r + j) = 0 ∨
    cell s (room_first_idx D r + j) = k

/-- Spec-side: depth `j` is the deepest currently-empty slot of room `r`. -/
def spec_deepest_empty (D : ℕ) (s : List ℕ) (r j : ℕ) : Prop :=
  j < D ∧ cell s (room_first_idx D r + j) = 0 ∧
    ∀ j' < D, j < j' → cell s (room_first_idx D r + j') ≠ 0

instance (s : List ℕ) (p e : ℕ) : Decidable (spec_path_clear s p e) := by
  unfold spec_path_clear
  infer_instance

instance (D : ℕ) (s : List ℕ) (r k : ℕ) : Decidable (spec_room_ready D s r k) := by
  unfold spec_room_ready
  exact Nat.decidableBallLT _ _

instance (D : ℕ) (s : List ℕ) (r j : ℕ) :
    Decidable (spec_deepest_empty D s r j) := by
  unfold spec_deepest_empty
  infer_instance

/-! ## Shape of generated hallway→room moves on well-formed states -/

theorem corridor_path_length (a b : ℕ) :
    (corridor_path a b).length = max a b + 1 - min a b := by
  simp [corridor_path]

theorem valid_room_entrance_eq {s : List ℕ} {p : ℕ} (h5 : cell s p < 5) :
    valid_room_entrance s p = 2 + 2 * valid_room s p := by
  unfold valid_room_entrance valid_room
  have : cell s p - 1 ≤ 3 := by omega
  exact Nat.mod_eq_of_lt (by omega)

theorem room_moves_src_ge {D : ℕ} {s : List ℕ} {r : ℕ} {m : ℕ × ℕ × ℕ}
    (hm : m ∈ room_moves D s r) : 11 ≤ m.1 := by
  obtain ⟨depth, -, h, -, hone⟩ := mem_room_moves.1 hm
  obtain ⟨-, -, rfl⟩ := room_move_one_eq_some.1 hone
  unfold room_first_idx
  omega

theorem mem_next_moves_of_src_lt {D : ℕ} {s : List ℕ} {m : ℕ × ℕ × ℕ}
    (hm : m ∈ next_moves D s) (h : m.1 < 11) :
    m.1 ∈ VALID_HALLWAY_IDX ∧ hallway_move D s m.1 = some m := by
  rcases mem_next_moves.1 hm with ⟨p, hp, hsome⟩ | ⟨r, hr, hroom⟩
  · obtain ⟨-, -, -, hmeq⟩ := hallway_move_eq_some.1 hsome
    have : m.1 = p := by rw [hmeq]
    rw [this]
    exact ⟨hp, hsome⟩
  · exact absurd (room_moves_src_ge hroom) (by omega)

theorem hallway_move_shape {D : ℕ} {s : List ℕ} (hwf : WellFormed D s)
    {p : ℕ} (hplt : p < 11) {m : ℕ × ℕ × ℕ}
    (hsome : hallway_move D s p = some m) :
    ∃ j, spec_deepest_empty D s (valid_room s p) j ∧
      m = (p, room_first_idx D (valid_room s p) + j,
        (corridor_path p (valid_room_entrance s p)).length + j) := by
  obtain ⟨hpos, hpath, hready, hmeq⟩ := hallway_move_eq_some.1 hsome
  obtain ⟨hlen, hcells, hcount, hsettled, hW⟩ := hwf
  have hk5 : cell s p < 5 := cell_lt_of_forall hcells p
  have hvr : valid_room s p < 4 := by
    unfold valid_room
    omega
  have hpathlen : (corridor_path p (valid_room_entrance s p)).length ≤ 11 := by
    rw [corridor_path_length, valid_room_entrance_eq hk5]
    have : valid_room s p ≤ 3 := by omega
    omega
  have hmul : valid_room s p * D ≤ 3 * D :=
    Nat.mul_le_mul_right D (by omega)
  have hrf : room_first_idx D (valid_room s p) = 11 + valid_room s p * D := rfl
  rcases nondegenerate_hallway ⟨hlen, hcells, hcount, hsettled, hW⟩ hplt
      (by omega) hready with ⟨hnone, hD⟩ | ⟨e, hsome', he1, heD⟩
  · have h1 : wadd (room_first_idx D (valid_room s p)) (D - 1) =
        room_first_idx D (valid_room s p) + (D - 1) := by
      apply wadd_small
      rw [hrf]
      omega
    have h2 : wadd (corridor_path p (valid_room_entrance s p)).length (D - 1) =
        (corridor_path p (valid_room_entrance s p)).length + (D - 1) := by
      apply wadd_small
      omega
    refine ⟨D - 1, ⟨by omega, ?_, by omega⟩, ?_⟩
    · exact room_depth_occupied_none hlen hvr hnone (D - 1) (by omega)
    · rw [hmeq]
      unfold depth_to_move
      rw [hnone]
      simp only [Option.getD_none]
      rw [wsub_one (by omega) (by omega), h1, h2]
  · have h1 : wadd (room_first_idx D (valid_room s p)) (e - 1) =
        room_first_idx D (valid_room s p) + (e - 1) := by
      apply wadd_small
      rw [hrf]
      omega
    have h2 : wadd (corridor_path p (valid_room_entrance s p)).length (e - 1) =
        (corridor_path p (valid_room_entrance s p)).length + (e - 1) := by
      apply wadd_small
      omega
    refine ⟨e - 1, ⟨by omega, ?_, ?_⟩, ?_⟩
    · exact (room_depth_occupied_some hlen hvr hsome').2.2 (e - 1) (by omega)
    · intro j' hj'D hjgt
      have hne := (room_depth_occupied_some hlen hvr hsome').2.1
      exact hsettled _ hvr e heD j' hj'D (by omega) hne
    · rw [hmeq]
      unfold depth_to_move
      rw [hsome']
      simp only [Option.getD_some]
      rw [wsub_one (by omega) (by omega), h1, h2]

theorem valid_hallway_lt {p : ℕ} (hp : p ∈ VALID_HALLWAY_IDX) : p < 11 := by
  simp only [VALID_HALLWAY_IDX, List.mem_cons, List.not_mem_nil, or_false] at hp
  rcases hp with rfl | rfl | rfl | rfl | rfl | rfl | rfl <;> norm_num

/-! ## C2: hallway→room move generation -/

/-- C2 (amended: restricted to well-formed states; on degenerate boards the
`usize` underflow in `depth_to_move` makes the claim false, see the
counterexample).  For every well-formed state and hallway position `p`
holding an amphipod: a move with source `p` is generated iff the whole
corridor between `p` and its destination room's entrance is free and the
room holds only empty slots or its own kind; the destination of such a move
is the deepest currently-empty slot of that room; and no generated move, from
`p` or anywhere else, leads from the hallway to the hallway. -/
theorem hallway_moves_spec {D : ℕ} {s : List ℕ} (hwf : WellFormed D s)
    {p : ℕ} (hp : p ∈ VALID_HALLWAY_IDX) (hocc : cell s p ≠ 0) :
    ((∃ d st, (p, d, st) ∈ next_moves D s) ↔
        spec_path_clear s p (2 + 2 * (cell s p - 1)) ∧
          spec_room_ready D s (cell s p - 1) (cell s p)) ∧
      (∀ d st, (p, d, st) ∈ next_moves D s →
        ∃ j, spec_deepest_empty D s (cell s p - 1) j ∧
          d = room_first_idx D (cell s p - 1) + j) ∧
      (∀ src d st, (src, d, st) ∈ next_moves D s → src < 11 → 11 ≤ d) := by
  have hplt : p < 11 := valid_hallway_lt hp
  have hk5 : cell s p < 5 := cell_lt_of_forall hwf.2.1 p
  have hvr4 : valid_room s p < 4 := by
    unfold valid_room
    omega
  have hvreq : valid_room s p = cell s p - 1 := rfl
  have hentr : valid_room_entrance s p = 2 + 2 * (cell s p - 1) :=
    valid_room_entrance_eq hk5
  refine ⟨⟨?_, ?_⟩, ?_, ?_⟩
  · rintro ⟨d, st, hm⟩
    obtain ⟨-, hsome⟩ := mem_next_moves_of_src_lt hm hplt
    obtain ⟨-, hpath, hready, -⟩ := hallway_move_eq_some.1 hsome
    constructor
    · intro i hi hne
      rw [hentr] at hpath
      exact (hpath i hi).resolve_left hne
    · intro j hj
      rw [← hvreq]
      exact hready _ ((mem_room_data_iff hwf.1 hvr4).2 ⟨j, hj, rfl⟩)
  · rintro ⟨hpc, hrr⟩
    refine ⟨_, _, mem_next_moves.2 (Or.inl ⟨p, hp, hallway_move_eq_some.2
      ⟨by omega, ?_, ?_, rfl⟩⟩)⟩
    · intro i hi
      rcases eq_or_ne i p with rfl | hne
      · exact Or.inl rfl
      · rw [hentr] at hi
        exact Or.inr (hpc i hi hne)
    · intro v hv
      obtain ⟨j, hj, rfl⟩ := (mem_room_data_iff hwf.1 hvr4).1 hv
      rw [hvreq]
      exact hrr j hj
  · intro d st hm
    obtain ⟨-, hsome⟩ := mem_next_moves_of_src_lt hm hplt
    obtain ⟨j, hde, hmeq⟩ := hallway_move_shape hwf hplt hsome
    rw [Prod.mk.injEq, Prod.mk.injEq] at hmeq
    exact ⟨j, hvreq ▸ hde, hvreq ▸ hmeq.2.1⟩
  · intro src d st hm hsrc
    obtain ⟨-, hsome⟩ := mem_next_moves_of_src_lt hm hsrc
    obtain ⟨j, hde, hmeq⟩ := hallway_move_shape hwf hsrc hsome
    rw [Prod.mk.injEq, Prod.mk.injEq] at hmeq
    have : d = room_first_idx D (valid_room s src) + j := hmeq.2.1
    rw [this]
    unfold room_first_idx
    omega

/-- C2 witness: the well-formed board with an A at hallway 0 and an A settled
at the bottom of room 0. -/
theorem hallway_moves_spec_witness :
    WellFormed 2 [1,0,0,0,0,0,0,0,0,0,0,0,1,0,0,0,0,0,0] ∧
      (0 : ℕ) ∈ VALID_HALLWAY_IDX ∧
      cell [1,0,0,0,0,0,0,0,0,0,0,0,1,0,0,0,0,0,0] 0 ≠ 0 ∧
      (((∃ d st, ((0 : ℕ), d, st) ∈
          next_moves 2 [1,0,0,0,0,0,0,0,0,0,0,0,1,0,0,0,0,0,0]) ↔
        spec_path_clear [1,0,0,0,0,0,0,0,0,0,0,0,1,0,0,0,0,0,0] 0
            (2 + 2 * (cell [1,0,0,0,0,0,0,0,0,0,0,0,1,0,0,0,0,0,0] 0 - 1)) ∧
          spec_room_ready 2 [1,0,0,0,0,0,0,0,0,0,0,0,1,0,0,0,0,0,0]
            (cell [1,0,0,0,0,0,0,0,0,0,0,0,1,0,0,0,0,0,0] 0 - 1)
            (cell [1,0,0,0,0,0,0,0,0,0,0,0,1,0,0,0,0,0,0] 0)) ∧
      (∀ d st, ((0 : ℕ), d, st) ∈
          next_moves 2 [1,0,0,0,0,0,0,0,0,0,0,0,1,0,0,0,0,0,0] →
        ∃ j, spec_deepest_empty 2 [1,0,0,0,0,0,0,0,0,0,0,0,1,0,0,0,0,0,0]
            (cell [1,0,0,0,0,0,0,0,0,0,0,0,1,0,0,0,0,0,0] 0 - 1) j ∧
          d = room_first_idx 2
            (cell [1,0,0,0,0,0,0,0,0,0,0,0,1,0,0,0,0,0,0] 0 - 1) + j) ∧
      (∀ src d st, (src, d, st) ∈
          next_moves 2 [1,0,0,0,0,0,0,0,0,0,0,0,1,0,0,0,0,0,0] →
        src < 11 → 11 ≤ d)) :=
  ⟨by decide, by decide, by decide,
    hallway_moves_spec (by decide) (by decide) (by decide)⟩

/-- C2 counterexample: from the state reachable from parsing an input with
two A-characters and moving one amphipod out (an A at hallway 0, an A at the
top slot of room 0 with the slot below it empty), the source generates the
move `(0, 10, 2)`: a hallway→hallway move (the `usize` underflow `0 - 1` in
`depth_to_move` wraps, so the "destination" is hallway cell 10, not the
deepest empty slot of room 0).  This refutes the claim as stated for
arbitrary states. -/
theorem hallway_moves_claim_false :
    (0, 10, 2) ∈ next_moves 2 [1,0,0,0,0,0,0,0,0,0,0,1,0,0,0,0,0,0,0] ∧
      ¬(11 ≤ 10) := by
  constructor
  · decide
  · omega

/-! ## C3: room→hallway move generation -/

/-- Spec-side: depth `depth` holds the topmost (shallowest) occupied slot of
room `r`. -/
def spec_topmost (D : ℕ) (s : List ℕ) (r depth : ℕ) : Prop :=
  depth < D ∧ cell s (room_first_idx D r + depth) ≠ 0 ∧
    ∀ j < depth, cell s (room_first_idx D r + j) = 0

instance (D : ℕ) (s : List ℕ) (r depth : ℕ) :
    Decidable (spec_topmost D s r depth) := by
  unfold spec_topmost
  infer_instance

theorem room_depth_occupied_eq_some_iff {D : ℕ} {s : List ℕ} {r depth : ℕ}
    (hlen : s.length = 11 + 4 * D) (hr : r < 4) :
    room_depth_occupied D s r = some depth ↔ spec_topmost D s r depth := by
  constructor
  · intro h
    obtain ⟨h1, h2, h3⟩ := room_depth_occupied_some hlen hr h
    exact ⟨h1, h2, h3⟩
  · rintro ⟨h1, h2, h3⟩
    unfold room_depth_occupied
    rw [List.findIdx?_eq_some_iff_getElem]
    refine ⟨by rw [room_data_length hlen hr]; exact h1, ?_, ?_⟩
    · rw [room_data_cell hlen hr]
      simpa using Nat.pos_of_ne_zero h2
    · intro j hj
      rw [room_data_cell hlen hr]
      simp [h3 j hj]

theorem hallway_move_src_lt {D : ℕ} {s : List ℕ} {p : ℕ} {m : ℕ × ℕ × ℕ}
    (hp : p ∈ VALID_HALLWAY_IDX) (h : hallway_move D s p = some m) :
    m.1 < 11 := by
  obtain ⟨-, -, -, hmeq⟩ := hallway_move_eq_some.1 h
  rw [hmeq]
  exact valid_hallway_lt hp

/-- Shape of a generated room→hallway move (no well-formedness needed). -/
theorem room_move_mem_shape {D : ℕ} {s : List ℕ} (hlen : s.length = 11 + 4 * D)
    {src d st : ℕ} (hm : (src, d, st) ∈ next_moves D s) (hsrc : 11 ≤ src) :
    ∃ r < 4, ∃ depth, room_depth_occupied D s r = some depth ∧
      src = room_first_idx D r + depth ∧ d ∈ VALID_HALLWAY_IDX ∧
      (∀ i ∈ corridor_path d (2 + r * 2), cell s i = 0) ∧
      st = (corridor_path d (2 + r * 2)).length + depth := by
  rcases mem_next_moves.1 hm with ⟨p, hp, hsome⟩ | ⟨r, hr, hroom⟩
  · exact absurd (hallway_move_src_lt hp hsome) (by omega)
  · obtain ⟨depth, hocc, h, hh, hone⟩ := mem_room_moves.1 hroom
    obtain ⟨hnot, hpath, hmeq⟩ := room_move_one_eq_some.1 hone
    rw [Prod.mk.injEq, Prod.mk.injEq] at hmeq
    obtain ⟨h1, h2, h3⟩ := hmeq
    refine ⟨r, hr, depth, hocc, h1, ?_, ?_, ?_⟩
    · rw [h2]
      exact hh
    · rw [h2]
      exact hpath
    · rw [h2, h3]
      rfl

/-- C3 (amended).  Every generated room→hallway move starts at the topmost
occupied slot of a room and ends at a legal hallway stopping position whose
whole corridor from the room entrance (destination included) is free, with
the step count determined by the corridor span and the depth; and a legal
candidate move is generated **iff** its destination does not lie on the direct
corridor route towards the amphipod's target room at corridor distance ≥ 2
from the source room's entrance — regardless of whether the amphipod could
actually continue into its target room (the code never checks that room's
contents or the rest of the path, contrary to the claim's
"when it could instead continue straight into its own matching room"). -/
theorem room_moves_spec {D : ℕ} {s : List ℕ} (hlen : s.length = 11 + 4 * D)
    (hcells : ∀ x ∈ s, x < 5) :
    (∀ src d st, (src, d, st) ∈ next_moves D s → 11 ≤ src →
      ∃ r < 4, ∃ depth, spec_topmost D s r depth ∧
        src = room_first_idx D r + depth ∧ d ∈ VALID_HALLWAY_IDX ∧
        (∀ i ∈ corridor_path d (2 + r * 2), cell s i = 0) ∧
        st = (corridor_path d (2 + r * 2)).length + depth) ∧
    (∀ r < 4, ∀ depth, spec_topmost D s r depth → ∀ h ∈ VALID_HALLWAY_IDX,
      (∀ i ∈ corridor_path h (2 + r * 2), cell s i = 0) →
      ((room_first_idx D r + depth, h,
          (corridor_path h (2 + r * 2)).length + depth) ∈ next_moves D s ↔
        ¬((min (2 + r * 2) (2 + (cell s (room_first_idx D r + depth) - 1) * 2) ≤ h ∧
            h ≤ max (2 + r * 2) (2 + (cell s (room_first_idx D r + depth) - 1) * 2)) ∧
          2 < (corridor_path h (2 + r * 2)).length))) := by
  have htgt : ∀ r depth : ℕ, tgt_entrance D s r depth =
      2 + (cell s (room_first_idx D r + depth) - 1) * 2 := by
    intro r depth
    unfold tgt_entrance
    have := cell_lt_of_forall hcells (room_first_idx D r + depth)
    exact Nat.mod_eq_of_lt (by omega)
  constructor
  · intro src d st hm hsrc
    obtain ⟨r, hr, depth, hocc, h1, h2, h3, h4⟩ := room_move_mem_shape hlen hm hsrc
    exact ⟨r, hr, depth, (room_depth_occupied_eq_some_iff hlen hr).1 hocc,
      h1, h2, h3, h4⟩
  · intro r hr depth htop h hh hpath
    constructor
    · intro hm
      rcases mem_next_moves.1 hm with ⟨p, hp, hsome⟩ | ⟨r', hr', hroom⟩
      · have := hallway_move_src_lt hp hsome
        simp only at this
        unfold room_first_idx at this
        omega
      · obtain ⟨depth', hocc', h', hh', hone'⟩ := mem_room_moves.1 hroom
        obtain ⟨hnot', hpath', hmeq'⟩ := room_move_one_eq_some.1 hone'
        rw [Prod.mk.injEq, Prod.mk.injEq] at hmeq'
        obtain ⟨h1', h2', h3'⟩ := hmeq'
        obtain ⟨hdepth'D, -, -⟩ :=
          room_depth_occupied_some hlen hr' hocc'
        obtain ⟨hdepthD, -, -⟩ := htop
        have hsrc_eq : room_first_idx D r' + depth' =
            room_first_idx D r + depth := h1'.symm
        unfold room_first_idx at hsrc_eq
        have heq : r' = r ∧ depth' = depth := by
          interval_cases r <;> interval_cases r' <;> omega
        obtain ⟨rfl, rfl⟩ := heq
        rw [← h2'] at hnot'
        unfold src_entrance at hnot'
        rw [htgt] at hnot'
        exact hnot'
    · intro hnot
      apply mem_next_moves.2
      refine Or.inr ⟨r, hr, mem_room_moves.2
        ⟨depth, (room_depth_occupied_eq_some_iff hlen hr).2 htop, h, hh,
          room_move_one_eq_some.2 ⟨?_, hpath, rfl⟩⟩⟩
      unfold src_entrance
      rw [htgt]
      exact hnot

/-- C3 witness: a concrete board with amphipods in rooms. -/
theorem room_moves_spec_witness :
    ([0,0,0,0,0,0,0,0,0,0,0,2,0,0,0,1,0,0,0] : List ℕ).length = 11 + 4 * 2 ∧
      (∀ x ∈ ([0,0,0,0,0,0,0,0,0,0,0,2,0,0,0,1,0,0,0] : List ℕ), x < 5) ∧
      ((∀ src d st,
          (src, d, st) ∈ next_moves 2 [0,0,0,0,0,0,0,0,0,0,0,2,0,0,0,1,0,0,0] →
          11 ≤ src →
          ∃ r < 4, ∃ depth,
            spec_topmost 2 [0,0,0,0,0,0,0,0,0,0,0,2,0,0,0,1,0,0,0] r depth ∧
            src = room_first_idx 2 r + depth ∧ d ∈ VALID_HALLWAY_IDX ∧
            (∀ i ∈ corridor_path d (2 + r * 2),
              cell [0,0,0,0,0,0,0,0,0,0,0,2,0,0,0,1,0,0,0] i = 0) ∧
            st = (corridor_path d (2 + r * 2)).length + depth) ∧
        (∀ r < 4, ∀ depth,
          spec_topmost 2 [0,0,0,0,0,0,0,0,0,0,0,2,0,0,0,1,0,0,0] r depth →
          ∀ h ∈ VALID_HALLWAY_IDX,
          (∀ i ∈ corridor_path h (2 + r * 2),
            cell [0,0,0,0,0,0,0,0,0,0,0,2,0,0,0,1,0,0,0] i = 0) →
          ((room_first_idx 2 r + depth, h,
              (corridor_path h (2 + r * 2)).length + depth) ∈
                next_moves 2 [0,0,0,0,0,0,0,0,0,0,0,2,0,0,0,1,0,0,0] ↔
            ¬((min (2 + r * 2) (2 + (cell [0,0,0,0,0,0,0,0,0,0,0,2,0,0,0,1,0,0,0]
                  (room_first_idx 2 r + depth) - 1) * 2) ≤ h ∧
                h ≤ max (2 + r * 2)
                  (2 + (cell [0,0,0,0,0,0,0,0,0,0,0,2,0,0,0,1,0,0,0]
                    (room_first_idx 2 r + depth) - 1) * 2)) ∧
              2 < (corridor_path h (2 + r * 2)).length)))) :=
  ⟨by decide, by decide, room_moves_spec (by decide) (by decide)⟩

/-- C3 counterexample: an A sits atop room 2 (its target is room 0, which
contains a B, so it cannot enter it), hallway 3 is a legal, reachable
stopping position, yet the move to 3 is omitted because 3 lies on the direct
route at corridor distance ≥ 2 — refuting the claim that omitted moves are
only those where the amphipod "could instead continue straight into its own
matching room". -/
theorem room_moves_claim_false :
    (∀ st, ((15 : ℕ), 3, st) ∉
        next_moves 2 [0,0,0,0,0,0,0,0,0,0,0,2,0,0,0,1,0,0,0]) ∧
      cell [0,0,0,0,0,0,0,0,0,0,0,2,0,0,0,1,0,0,0] 15 = 1 ∧
      spec_topmost 2 [0,0,0,0,0,0,0,0,0,0,0,2,0,0,0,1,0,0,0] 2 0 ∧
      (3 : ℕ) ∈ VALID_HALLWAY_IDX ∧
      (∀ i ∈ corridor_path 3 (2 + 2 * 2),
        cell [0,0,0,0,0,0,0,0,0,0,0,2,0,0,0,1,0,0,0] i = 0) ∧
      ¬ spec_room_ready 2 [0,0,0,0,0,0,0,0,0,0,0,2,0,0,0,1,0,0,0] 0 1 := by
  refine ⟨?_, by decide, by decide, by decide, by decide, by decide⟩
  intro st h
  rw [show next_moves 2 [0,0,0,0,0,0,0,0,0,0,0,2,0,0,0,1,0,0,0] =
    [(11, 0, 3), (11, 1, 2), (11, 3, 2), (11, 5, 4), (11, 7, 6), (11, 9, 8),
     (11, 10, 9), (15, 0, 7), (15, 1, 6), (15, 5, 2), (15, 7, 2), (15, 9, 4),
     (15, 10, 5)] from by decide] at h
  simp only [List.mem_cons, List.not_mem_nil, or_false, Prod.mk.injEq] at h
  omega

/-! ## Bounds of generated moves -/

theorem wadd_W_sub_one {x : ℕ} (h1 : 1 ≤ x) (h2 : x ≤ W) :
    wadd x (W - 1) = x - 1 := by
  unfold wadd
  have := W_pos
  have hx : x + (W - 1) = (x - 1) + W := by omega
  rw [hx, Nat.add_mod_right]
  exact Nat.mod_eq_of_lt (by omega)

theorem self_mem_corridor_path (a b : ℕ) : a ∈ corridor_path a b := by
  unfold corridor_path
  rw [List.mem_range'_1]
  omega

/-- Every generated move stays inside the board, for any state with legal
cell values on a machine-representable board — including the degenerate
underflowing moves. -/
theorem moves_in_bounds {D : ℕ} {s : List ℕ} (hlen : s.length = 11 + 4 * D)
    (hcells : ∀ x ∈ s, x < 5) (hW : 11 + 4 * D < W) :
    ∀ m ∈ next_moves D s, m.1 < s.length ∧ m.2.1 < s.length := by
  intro m hm
  obtain ⟨src, d, st⟩ := m
  by_cases hsrc : src < 11
  · obtain ⟨hpv, hsome⟩ := mem_next_moves_of_src_lt hm hsrc
    obtain ⟨hpos, -, -, hmeq⟩ := hallway_move_eq_some.1 hsome
    rw [Prod.mk.injEq, Prod.mk.injEq] at hmeq
    have hk5 : cell s src < 5 := cell_lt_of_forall hcells src
    have hvr : valid_room s src ≤ 3 := by
      unfold valid_room
      omega
    have hmul : valid_room s src * D ≤ 3 * D :=
      Nat.mul_le_mul_right D hvr
    have hrf : room_first_idx D (valid_room s src) =
        11 + valid_room s src * D := rfl
    have hdest : d = wadd (room_first_idx D (valid_room s src))
        (depth_to_move D s src) := hmeq.2.1
    simp only [hlen, hdest]
    refine ⟨by omega, ?_⟩
    unfold depth_to_move
    cases hocc : room_depth_occupied D s (valid_room s src) with
    | none =>
      simp only [Option.getD_none]
      rcases Nat.eq_zero_or_pos D with rfl | hD
      · rw [wsub_zero_one, wadd_W_sub_one (by rw [hrf]; omega)
          (by rw [hrf]; omega)]
        rw [hrf]
        omega
      · rw [wsub_one (by omega) (by omega), wadd_small (by rw [hrf]; omega)]
        rw [hrf]
        omega
    | some e =>
      simp only [Option.getD_some]
      have heD : e < D := (room_depth_occupied_some hlen (by omega) hocc).1
      rcases Nat.eq_zero_or_pos e with rfl | he
      · rw [wsub_zero_one, wadd_W_sub_one (by rw [hrf]; omega)
          (by rw [hrf]; omega)]
        rw [hrf]
        omega
      · rw [wsub_one (by omega) (by omega), wadd_small (by rw [hrf]; omega)]
        rw [hrf]
        omega
  · push_neg at hsrc
    obtain ⟨r, hr, depth, hocc, h1, h2, -, -⟩ :=
      room_move_mem_shape hlen hm hsrc
    have heD : depth < D := (room_depth_occupied_some hlen hr hocc).1
    have hrf : room_first_idx D r = 11 + r * D := rfl
    have hmul : r * D ≤ 3 * D := Nat.mul_le_mul_right D (by omega)
    constructor
    · simp only [h1, hlen, hrf]
      omega
    · have := valid_hallway_lt h2
      simp only [hlen]
      omega

/-! ## Reachability through generated moves -/

/-- Source `RchF D s c t`: from state `s` there is a sequence of generated moves of
total cost `c` ending in state `t`. -/
inductive RchF (D : ℕ) : List ℕ → ℕ → List ℕ → Prop
  | refl (s : List ℕ) : RchF D s 0 s
  | head {s : List ℕ} {m : ℕ × ℕ × ℕ} {c : ℕ} {t : List ℕ} :
      m ∈ next_moves D s → RchF D (apply_move s m).1 c t →
      RchF D s ((apply_move s m).2 + c) t

theorem RchF.trans {D : ℕ} {a : List ℕ} {c₁ : ℕ} {b : List ℕ}
    (h₁ : RchF D a c₁ b) : ∀ {c₂ t}, RchF D b c₂ t → RchF D a (c₁ + c₂) t := by
  induction h₁ with
  | refl =>
    intro c₂ t h
    simpa using h
  | head hm hrest ih =>
    intro c₂ t h
    have := RchF.head hm (ih h)
    rw [Nat.add_assoc]
    exact this

theorem RchF.single {D : ℕ} {s : List ℕ} {m : ℕ × ℕ × ℕ}
    (hm : m ∈ next_moves D s) : RchF D s (apply_move s m).2 (apply_move s m).1 := by
  have := RchF.head (D := D) hm (RchF.refl (apply_move s m).1)
  simpa using this

theorem RchF.snoc {D : ℕ} {s : List ℕ} {c : ℕ} {b : List ℕ}
    (h : RchF D s c b) {m : ℕ × ℕ × ℕ} (hm : m ∈ next_moves D b) :
    RchF D s (c + (apply_move b m).2) (apply_move b m).1 :=
  h.trans (RchF.single hm)

/-- Everything reachable from a legal-valued, machine-representable state
keeps the board length, the cell alphabet and the per-kind counts. -/
theorem reach_preserves {D : ℕ} {s : List ℕ} {c : ℕ} {t : List ℕ}
    (h : RchF D s c t) :
    s.length = 11 + 4 * D → (∀ x ∈ s, x < 5) → 11 + 4 * D < W →
      t.length = s.length ∧ (∀ x ∈ t, x < 5) ∧
        ∀ k, t.count k = s.count k := by
  induction h with
  | refl =>
    intro _ hc _
    exact ⟨rfl, hc, fun k => rfl⟩
  | @head s m c t hm hrest ih =>
    intro hlen hc hW
    obtain ⟨l1, c1, cnt1⟩ := ih (by rw [length_apply_move, hlen])
      (cells_apply_move hc m) hW
    have hb := moves_in_bounds hlen hc hW m hm
    refine ⟨by rw [l1, length_apply_move], c1, fun k => ?_⟩
    rw [cnt1 k]
    show (list_swap s m.1 m.2.1).count k = s.count k
    exact count_list_swap hb.1 hb.2 k

/-! ## C4: conservation of the amphipod multiset -/

/-- C4.  Applying any generated move preserves the number of occurrences of
every cell value (in particular of each amphipod kind); consequently every
state reachable from a legal-valued initial state carries the same multiset
of amphipod kinds. -/
theorem conservation {D : ℕ} {s : List ℕ} (hlen : s.length = 11 + 4 * D)
    (hcells : ∀ x ∈ s, x < 5) (hW : 11 + 4 * D < W) :
    (∀ m ∈ next_moves D s, ∀ k, (apply_move s m).1.count k = s.count k) ∧
      ∀ c t, RchF D s c t → ∀ k, t.count k = s.count k := by
  constructor
  · intro m hm k
    have hb := moves_in_bounds hlen hcells hW m hm
    show (list_swap s m.1 m.2.1).count k = s.count k
    exact count_list_swap hb.1 hb.2 k
  · intro c t h k
    exact ((reach_preserves h) hlen hcells hW).2.2 k

/-- C4 witness: a concrete board and a concrete generated move. -/
theorem conservation_witness :
    ([1,0,0,0,0,0,0,0,0,0,0,0,1,0,0,0,0,0,0] : List ℕ).length = 11 + 4 * 2 ∧
      (∀ x ∈ ([1,0,0,0,0,0,0,0,0,0,0,0,1,0,0,0,0,0,0] : List ℕ), x < 5) ∧
      11 + 4 * 2 < W ∧
      ((∀ m ∈ next_moves 2 [1,0,0,0,0,0,0,0,0,0,0,0,1,0,0,0,0,0,0], ∀ k,
          (apply_move [1,0,0,0,0,0,0,0,0,0,0,0,1,0,0,0,0,0,0] m).1.count k =
            ([1,0,0,0,0,0,0,0,0,0,0,0,1,0,0,0,0,0,0] : List ℕ).count k) ∧
        ∀ c t, RchF 2 [1,0,0,0,0,0,0,0,0,0,0,0,1,0,0,0,0,0,0] c t → ∀ k,
          t.count k = ([1,0,0,0,0,0,0,0,0,0,0,0,1,0,0,0,0,0,0] : List ℕ).count k) :=
  ⟨by decide, by decide, by decide,
    conservation (by decide) (by decide) (by decide)⟩

/-! ## C5: step counts and move costs -/

/-- C5 (amended: restricted to well-formed states; the degenerate underflow
move of the C2 counterexample also has a wrong step count, see below).  For
every generated move, the cost charged by `apply` is the step count times the
per-kind multiplier taken from `COSTS = [1, 10, 100, 1000]`, and the step
count is exactly the corridor distance in the hallway plus the depth
travelled inside the source/destination room. -/
theorem move_costs_spec {D : ℕ} {s : List ℕ} (hwf : WellFormed D s) :
    COSTS = [1, 10, 100, 1000] ∧
      ∀ src d st, (src, d, st) ∈ next_moves D s →
        (apply_move s (src, d, st)).2 = COSTS.getD (cell s src - 1) 0 * st ∧
        (src < 11 → ∃ j, spec_deepest_empty D s (cell s src - 1) j ∧
          d = room_first_idx D (cell s src - 1) + j ∧
          st = (max src (2 + 2 * (cell s src - 1)) -
            min src (2 + 2 * (cell s src - 1))) + (j + 1)) ∧
        (11 ≤ src → ∃ r < 4, ∃ depth, src = room_first_idx D r + depth ∧
          cell s src ≠ 0 ∧
          st = (max d (2 + r * 2) - min d (2 + r * 2)) + (depth + 1)) := by
  obtain ⟨hlen, hcells, hcount, hsettled, hW⟩ := hwf
  refine ⟨rfl, ?_⟩
  intro src d st hm
  have hk5 : cell s src < 5 := cell_lt_of_forall hcells src
  have hsrc_ne : cell s src ≠ 0 := by
    by_cases hsrc : src < 11
    · obtain ⟨-, hsome⟩ := mem_next_moves_of_src_lt hm hsrc
      obtain ⟨hpos, -, -, -⟩ := hallway_move_eq_some.1 hsome
      have hpos' : 0 < cell s src := hpos
      omega
    · push_neg at hsrc
      obtain ⟨r, hr, depth, hocc, h1, -, -, -⟩ :=
        room_move_mem_shape hlen hm hsrc
      have := (room_depth_occupied_some hlen hr hocc).2.1
      rw [h1]
      exact this
  have hcost : (apply_move s (src, d, st)).2 =
      COSTS.getD (cell s src - 1) 0 * st := by
    show COSTS.getD (wsub (cell s src) 1) 0 * st = _
    rw [wsub_one (by omega) (by have := W_pos; omega)]
  refine ⟨hcost, ?_, ?_⟩
  · intro hsrc
    obtain ⟨-, hsome⟩ := mem_next_moves_of_src_lt hm hsrc
    obtain ⟨j, hde, hmeq⟩ :=
      hallway_move_shape ⟨hlen, hcells, hcount, hsettled, hW⟩ hsrc hsome
    rw [Prod.mk.injEq, Prod.mk.injEq] at hmeq
    refine ⟨j, hde, hmeq.2.1, ?_⟩
    have hst : st = (corridor_path src (valid_room_entrance s src)).length + j :=
      hmeq.2.2
    rw [corridor_path_length, valid_room_entrance_eq hk5] at hst
    unfold valid_room at hst
    have hmm : min src (2 + 2 * (cell s src - 1)) ≤
        max src (2 + 2 * (cell s src - 1)) := min_le_max
    omega
  · intro hsrc
    obtain ⟨r, hr, depth, hocc, h1, h2, h3, h4⟩ :=
      room_move_mem_shape hlen hm hsrc
    refine ⟨r, hr, depth, h1, hsrc_ne, ?_⟩
    have hst : st = (corridor_path d (2 + r * 2)).length + depth := h4
    rw [corridor_path_length] at hst
    have hmm : min d (2 + r * 2) ≤ max d (2 + r * 2) := min_le_max
    omega

/-- C5 witness: a well-formed board with a hallway→room and room→hallway
move each. -/
theorem move_costs_spec_witness :
    WellFormed 2 [1,0,0,0,0,0,0,0,0,0,0,0,1,0,0,0,0,0,0] ∧
      (COSTS = [1, 10, 100, 1000] ∧
        ∀ src d st,
          (src, d, st) ∈ next_moves 2 [1,0,0,0,0,0,0,0,0,0,0,0,1,0,0,0,0,0,0] →
          (apply_move [1,0,0,0,0,0,0,0,0,0,0,0,1,0,0,0,0,0,0] (src, d, st)).2 =
            COSTS.getD (cell [1,0,0,0,0,0,0,0,0,0,0,0,1,0,0,0,0,0,0] src - 1) 0
              * st ∧
          (src < 11 → ∃ j, spec_deepest_empty 2
              [1,0,0,0,0,0,0,0,0,0,0,0,1,0,0,0,0,0,0]
              (cell [1,0,0,0,0,0,0,0,0,0,0,0,1,0,0,0,0,0,0] src - 1) j ∧
            d = room_first_idx 2
              (cell [1,0,0,0,0,0,0,0,0,0,0,0,1,0,0,0,0,0,0] src - 1) + j ∧
            st = (max src (2 + 2 *
                (cell [1,0,0,0,0,0,0,0,0,0,0,0,1,0,0,0,0,0,0] src - 1)) -
              min src (2 + 2 *
                (cell [1,0,0,0,0,0,0,0,0,0,0,0,1,0,0,0,0,0,0] src - 1)))
              + (j + 1)) ∧
          (11 ≤ src → ∃ r < 4, ∃ depth, src = room_first_idx 2 r + depth ∧
            cell [1,0,0,0,0,0,0,0,0,0,0,0,1,0,0,0,0,0,0] src ≠ 0 ∧
            st = (max d (2 + r * 2) - min d (2 + r * 2)) + (depth + 1))) :=
  ⟨by decide, move_costs_spec (by decide)⟩

/-- C5 counterexample: the degenerate wrap move `(0, 10, 2)` (see the C2
counterexample) is generated with step count 2, but the corridor distance
from hallway 0 to room A's entrance is already 2, so no choice of travelled
room depth `j + 1 ≥ 1` makes the claimed cost law hold. -/
theorem move_costs_claim_false :
    (0, 10, 2) ∈ next_moves 2 [1,0,0,0,0,0,0,0,0,0,0,1,0,0,0,0,0,0,0] ∧
      cell [1,0,0,0,0,0,0,0,0,0,0,1,0,0,0,0,0,0,0] 0 = 1 ∧
      ∀ j : ℕ, (2 : ℕ) ≠ (max 0 (2 + 2 * (1 - 1)) - min 0 (2 + 2 * (1 - 1)))
        + (j + 1) := by
  refine ⟨by decide, by decide, ?_⟩
  intro j
  omega

/-! ## C10: memory safety of generated moves -/

/-- C10 (amended: restricted to well-formed states; on arbitrary states with
cells in `0..=4` the claim is false, see the counterexample).  Every
generated move has in-range source and destination, a nonempty source cell
and an empty destination cell, and the `COSTS[data[source] - 1]` lookup in
`apply` neither underflows nor reads out of bounds. -/
theorem moves_safety {D : ℕ} {s : List ℕ} (hwf : WellFormed D s) :
    ∀ src d st, (src, d, st) ∈ next_moves D s →
      src < s.length ∧ d < s.length ∧ cell s src ≠ 0 ∧ cell s d = 0 ∧
        1 ≤ cell s src ∧ cell s src - 1 < COSTS.length := by
  obtain ⟨hlen, hcells, hcount, hsettled, hW⟩ := hwf
  intro src d st hm
  have hb := moves_in_bounds hlen hcells hW _ hm
  have hk5 : cell s src < 5 := cell_lt_of_forall hcells src
  by_cases hsrc : src < 11
  · obtain ⟨-, hsome⟩ := mem_next_moves_of_src_lt hm hsrc
    obtain ⟨hpos, -, -, -⟩ := hallway_move_eq_some.1 hsome
    have hpos' : 0 < cell s src := hpos
    obtain ⟨j, hde, hmeq⟩ :=
      hallway_move_shape ⟨hlen, hcells, hcount, hsettled, hW⟩ hsrc hsome
    rw [Prod.mk.injEq, Prod.mk.injEq] at hmeq
    refine ⟨hb.1, hb.2, by omega, ?_, by omega, ?_⟩
    · rw [hmeq.2.1]
      exact hde.2.1
    · show cell s src - 1 < 4
      omega
  · push_neg at hsrc
    obtain ⟨r, hr, depth, hocc, h1, h2, h3, h4⟩ :=
      room_move_mem_shape hlen hm hsrc
    have hne : cell s src ≠ 0 := by
      rw [h1]
      exact (room_depth_occupied_some hlen hr hocc).2.1
    refine ⟨hb.1, hb.2, hne, ?_, by omega, ?_⟩
    · exact h3 d (self_mem_corridor_path d (2 + r * 2))
    · show cell s src - 1 < 4
      omega

/-- C10 witness. -/
theorem moves_safety_witness :
    WellFormed 2 [1,0,0,0,0,0,0,0,0,0,0,0,1,0,0,0,0,0,0] ∧
      ∀ src d st,
        (src, d, st) ∈ next_moves 2 [1,0,0,0,0,0,0,0,0,0,0,0,1,0,0,0,0,0,0] →
        src < ([1,0,0,0,0,0,0,0,0,0,0,0,1,0,0,0,0,0,0] : List ℕ).length ∧
          d < ([1,0,0,0,0,0,0,0,0,0,0,0,1,0,0,0,0,0,0] : List ℕ).length ∧
          cell [1,0,0,0,0,0,0,0,0,0,0,0,1,0,0,0,0,0,0] src ≠ 0 ∧
          cell [1,0,0,0,0,0,0,0,0,0,0,0,1,0,0,0,0,0,0] d = 0 ∧
          1 ≤ cell [1,0,0,0,0,0,0,0,0,0,0,0,1,0,0,0,0,0,0] src ∧
          cell [1,0,0,0,0,0,0,0,0,0,0,0,1,0,0,0,0,0,0] src - 1 < COSTS.length :=
  ⟨by decide, moves_safety (by decide)⟩

/-- C10 counterexample: on a board whose cells all lie in `0..=4` (an A at
each hallway end, room 0 full of A's), the generated degenerate move
`(0, 10, 2)` has an occupied destination cell, so the "swap is between a
filled and an empty cell" part of the claim fails with only the `0..=4`
hypothesis. -/
theorem moves_safety_claim_false :
    (∀ x ∈ ([1,0,0,0,0,0,0,0,0,0,1,1,1,0,0,0,0,0,0] : List ℕ), x ≤ 4) ∧
      (0, 10, 2) ∈ next_moves 2 [1,0,0,0,0,0,0,0,0,0,1,1,1,0,0,0,0,0,0] ∧
      cell [1,0,0,0,0,0,0,0,0,0,1,1,1,0,0,0,0,0,0] 10 ≠ 0 := by
  refine ⟨by decide, by decide, by decide⟩

/-! ## C6: the terminal predicate -/

/-- C6.  `is_complete` is true iff every depth slot of every room `r` holds
the amphipod kind `r + 1` that owns the room. -/
theorem is_complete_iff {D : ℕ} {s : List ℕ} (hlen : s.length = 11 + 4 * D) :
    is_complete D s = true ↔
      ∀ r < 4, ∀ j < D, cell s (room_first_idx D r + j) = r + 1 := by
  simp only [is_complete, List.all_eq_true, List.mem_range]
  constructor
  · intro h r hr j hj
    have := h r hr
    rw [room_data_eq hlen hr] at this
    have := this _ (List.mem_map.2 ⟨j, List.mem_range.2 hj, rfl⟩)
    simpa using this
  · intro h r hr
    intro v hv
    rw [mem_room_data_iff hlen hr] at hv
    obtain ⟨j, hj, rfl⟩ := hv
    simpa using h r hr j hj

/-- C6 witness: the fully organized depth-2 board satisfies both sides. -/
theorem is_complete_iff_witness :
    ([0,0,0,0,0,0,0,0,0,0,0,1,1,2,2,3,3,4,4] : List ℕ).length = 11 + 4 * 2 ∧
      (is_complete 2 [0,0,0,0,0,0,0,0,0,0,0,1,1,2,2,3,3,4,4] = true ↔
        ∀ r < 4, ∀ j < 2,
          cell [0,0,0,0,0,0,0,0,0,0,0,1,1,2,2,3,3,4,4] (room_first_idx 2 r + j)
            = r + 1) :=
  ⟨by decide, is_complete_iff (by decide)⟩

/-! ## C9: move generation is a pure function of the state -/

/-- C9.  The move generator is deterministic: two generations from the same
state (which is never mutated — states are immutable values in the embedding)
yield the same list of `(source, destination, steps)` triples. -/
theorem next_moves_deterministic (D : ℕ) (s : List ℕ) (ms₁ ms₂ : List (ℕ × ℕ × ℕ))
    (h₁ : ms₁ = next_moves D s) (h₂ : ms₂ = next_moves D s) : ms₁ = ms₂ := by
  rw [h₁, h₂]

/-- C9 witness. -/
theorem next_moves_deterministic_witness :
    [(0, 12, 4)] = next_moves 2 [1,0,0,0,0,0,0,0,0,0,0,0,0,0,0,0,0,0,0] ∧
      ([(0, 12, 4)] : List (ℕ × ℕ × ℕ)) = [(0, 12, 4)] :=
  ⟨by decide,
    next_moves_deterministic 2 [1,0,0,0,0,0,0,0,0,0,0,0,0,0,0,0,0,0,0]
      [(0, 12, 4)] [(0, 12, 4)] (by decide) (by decide)⟩

/-! ## C7: parsing never surfaces an error

The claim says a malformed diagram fails with a ParseError.  In the source,
`FromStr::Err = Infallible`: no error value can ever be returned.  Characters
outside `'A'..='D'` are silently dropped, so a garbage diagram parses to `Ok`;
and when the kept characters outnumber the room slots the fixed-array write
`data[11 + D*(idx%4) + idx/4] = val` panics — an abort, not a surfaced error
the caller could branch on. -/

theorem write_letters_eq_none (D : ℕ) :
    ∀ (l : List Char) (idx : ℕ) (data : List ℕ),
      (write_letters D idx data l = none ↔
        ∃ j, idx ≤ j ∧ j < idx + l.length ∧
          data.length ≤ 11 + D * (j % 4) + j / 4) := by
  intro l
  induction l with
  | nil =>
    intro idx data
    simp only [write_letters, List.length_nil, Nat.add_zero]
    constructor
    · intro h
      exact absurd h (by simp)
    · rintro ⟨j, h1, h2, _⟩
      omega
  | cons c rest ih =>
    intro idx data
    by_cases hi : 11 + D * (idx % 4) + idx / 4 < data.length
    · have hstep : write_letters D idx data (c :: rest) =
          write_letters D (idx + 1)
            (data.set (11 + D * (idx % 4) + idx / 4) (c.toNat - 'A'.toNat + 1))
            rest := by
        simp only [write_letters]
        rw [if_pos hi]
      rw [hstep, ih]
      simp only [List.length_set, List.length_cons]
      constructor
      · rintro ⟨j, h1, h2, h3⟩
        exact ⟨j, by omega, by omega, h3⟩
      · rintro ⟨j, h1, h2, h3⟩
        rcases Nat.eq_or_lt_of_le h1 with rfl | h
        · omega
        · exact ⟨j, by omega, by omega, h3⟩
    · have hstep : write_letters D idx data (c :: rest) = none := by
        simp only [write_letters]
        rw [if_neg hi]
      rw [hstep]
      simp only [List.length_cons]
      exact ⟨fun _ => ⟨idx, le_refl _, by omega, by omega⟩, fun _ => trivial⟩

/-- C7 counterexample: an input with an entirely wrong character set parses
successfully (to the all-empty board) instead of failing with a parse error. -/
theorem from_str_no_error_on_garbage :
    from_str 2 ("xyz#".toList) = some (Except.ok (List.replicate 19 0)) ∧
      ∀ e : Empty, from_str 2 ("xyz#".toList) ≠ some (Except.error e) :=
  ⟨rfl, fun e => e.elim⟩

/-- C7 amended: parsing never surfaces an error value to the caller (the error
type is uninhabited); an input whose kept `'A'..='D'` characters fit the board
(at most `4*D` of them) returns `Ok`; and the only failure mode is a panic
(`none`), which occurs exactly when some kept character's write index
`11 + D*(idx%4) + idx/4` falls outside the board — for `D ≥ 1`, exactly when
the input has more than `4*D + 3` kept characters.  So a malformed diagram is
never reported as a `ParseError`: it is silently accepted or the program
aborts. -/
theorem from_str_infallible (D : ℕ) (input : List Char) :
    (∀ e : Empty, from_str D input ≠ some (Except.error e)) ∧
      (from_str D input = none ↔
        ∃ i < (letters_of input).length, 4 * D ≤ D * (i % 4) + i / 4) ∧
      ((letters_of input).length ≤ 4 * D →
        ∃ s, from_str D input = some (Except.ok s)) ∧
      (1 ≤ D →
        (from_str D input = none ↔ 4 * D + 3 < (letters_of input).length)) := by
  have hnone : from_str D input = none ↔
      ∃ i < (letters_of input).length, 4 * D ≤ D * (i % 4) + i / 4 := by
    unfold from_str
    rw [Option.map_eq_none', write_letters_eq_none]
    simp only [List.length_replicate, Nat.zero_add]
    constructor
    · rintro ⟨j, _, h2, h3⟩
      exact ⟨j, h2, by omega⟩
    · rintro ⟨i, h1, h2⟩
      exact ⟨i, Nat.zero_le _, h1, by omega⟩
  have hok : (letters_of input).length ≤ 4 * D →
      ∃ s, from_str D input = some (Except.ok s) := by
    intro hL
    have hne : from_str D input ≠ none := by
      intro hcontra
      rw [hnone] at hcontra
      obtain ⟨i, hiL, hle⟩ := hcontra
      have h4 : i % 4 = 0 ∨ i % 4 = 1 ∨ i % 4 = 2 ∨ i % 4 = 3 := by omega
      rcases h4 with h | h | h | h <;> rw [h] at hle <;> omega
    cases hw : write_letters D 0 (List.replicate (11 + 4 * D) 0)
        (letters_of input) with
    | none => exact absurd (by unfold from_str; rw [hw]; rfl) hne
    | some s => exact ⟨s, by unfold from_str; rw [hw]; rfl⟩
  have hthr : 1 ≤ D →
      (from_str D input = none ↔ 4 * D + 3 < (letters_of input).length) := by
    intro hD
    rw [hnone]
    constructor
    · rintro ⟨i, hiL, hle⟩
      have h4 : i % 4 = 0 ∨ i % 4 = 1 ∨ i % 4 = 2 ∨ i % 4 = 3 := by omega
      have hge : 4 * D + 3 ≤ i := by
        rcases h4 with h | h | h | h <;> rw [h] at hle <;> omega
      omega
    · intro hL
      refine ⟨4 * D + 3, hL, ?_⟩
      have h1 : (4 * D + 3) % 4 = 3 := by omega
      have h2 : (4 * D + 3) / 4 = D := by omega
      rw [h1, h2]
      omega
  exact ⟨fun e => e.elim, hnone, hok, hthr⟩

/-- C7 amended, exercised concretely: the well-shaped input ABCDABCD at depth 2
parses to `Ok`, and its panic condition is settled by the threshold form. -/
theorem from_str_infallible_witness :
    (∃ s, from_str 2 ("ABCDABCD".toList) = some (Except.ok s)) ∧
      (from_str 2 ("ABCDABCD".toList) = none ↔
        4 * 2 + 3 < (letters_of ("ABCDABCD".toList)).length) := by
  have h := from_str_infallible 2 ("ABCDABCD".toList)
  exact ⟨h.2.2.1 (by decide), h.2.2.2 (by decide)⟩

/-! ## The uniform-cost search driver (`organizing_cost`)

`organizing_cost` in the source maintains a `BinaryHeap<(Reverse<u64>, u64,
State)>` and a `HashMap<State, u64>`.  We embed the heap as a list of
`(cost, state)` entries popped by maximal priority under the source's tuple
order (minimal cost, ties by maximal state in the lexicographic array order
— ties never matter, entries comparing equal are identical), and the map as
an association list with overwrite-on-insert.  States carry the struct
invariant of the source (`u8` cells hold `0..=4` as documented in the struct
comment, fixed length), and costs are `u64` values, i.e. naturals below
`2^64`; both are needed for the termination measure. -/

/-- The documented representation invariant of `State<N>`'s cell array. -/
def Valid (D : ℕ) (s : List ℕ) : Prop :=
  s.length = 11 + 4 * D ∧ ∀ x ∈ s, x < 5

instance (D : ℕ) (s : List ℕ) : Decidable (Valid D s) := by
  unfold Valid
  infer_instance

/-- A `State<N>` value. -/
abbrev VState (D : ℕ) := { s : List ℕ // Valid D s }

/-- A `u64` value. -/
abbrev U64 := Fin W

/-- The `u64` zero. -/
def u0 : U64 := ⟨0, W_pos⟩

/-- A heap entry `(Reverse(cost), cost, state)`, with the redundant middle
component dropped. -/
abbrev Entry (D : ℕ) := U64 × VState D

/-- The visited/best-cost map. -/
abbrev VMap (D : ℕ) := List (VState D × U64)

/-- Lexicographic `<` on cell arrays (the derived `Ord` of `State<N>`). -/
def list_lt : List ℕ → List ℕ → Bool
  | _, [] => false
  | [], _ :: _ => true
  | x :: xs, y :: ys => decide (x < y) || (x == y && list_lt xs ys)

/-- Source `a` is popped before `b`: strictly greater in the `BinaryHeap` order on
`(Reverse(cost), cost, state)` — smaller cost, ties broken by greater state. -/
def entry_better {D : ℕ} (a b : Entry D) : Bool :=
  decide (a.1.val < b.1.val) || (a.1.val == b.1.val && list_lt b.2.val a.2.val)

/-- Source `BinaryHeap::pop`: remove a maximal-priority entry. -/
def pop_max {D : ℕ} : List (Entry D) → Option (Entry D × List (Entry D))
  | [] => none
  | x :: xs =>
    match pop_max xs with
    | none => some (x, [])
    | some (m, rest) =>
      if entry_better m x then some (m, x :: rest) else some (x, m :: rest)

theorem pop_max_eq_none {D : ℕ} {l : List (Entry D)} :
    pop_max l = none ↔ l = [] := by
  cases l with
  | nil => simp [pop_max]
  | cons x xs =>
    cases h : pop_max xs with
    | none => simp [pop_max, h]
    | some p =>
      obtain ⟨m, rest⟩ := p
      by_cases hb : entry_better m x <;> simp [pop_max, h, hb]

theorem pop_max_perm {D : ℕ} : ∀ {l : List (Entry D)} {e : Entry D}
    {rest : List (Entry D)}, pop_max l = some (e, rest) → l.Perm (e :: rest) := by
  intro l
  induction l with
  | nil =>
    intro e rest h
    simp [pop_max] at h
  | cons x xs ih =>
    intro e rest h
    cases hxs : pop_max xs with
    | none =>
      have hnil : xs = [] := pop_max_eq_none.mp hxs
      subst hnil
      simp only [pop_max, Option.some.injEq, Prod.mk.injEq] at h
      obtain ⟨rfl, rfl⟩ := h
      exact List.Perm.refl _
    | some p =>
      obtain ⟨m, rest'⟩ := p
      have hperm : xs.Perm (m :: rest') := ih hxs
      by_cases hb : entry_better m x
      · simp only [pop_max, hxs, hb, if_true, Option.some.injEq,
          Prod.mk.injEq] at h
        obtain ⟨rfl, rfl⟩ := h
        exact (hperm.cons x).trans (List.Perm.swap _ _ _)
      · simp only [pop_max, hxs, hb, if_false, Bool.false_eq_true,
          Option.some.injEq, Prod.mk.injEq] at h
        obtain ⟨rfl, rfl⟩ := h
        exact hperm.cons _

theorem entry_better_le {D : ℕ} {a b : Entry D} (h : entry_better a b = true) :
    a.1.val ≤ b.1.val := by
  unfold entry_better at h
  rw [Bool.or_eq_true, Bool.and_eq_true] at h
  rcases h with h | ⟨h, -⟩
  · exact le_of_lt (of_decide_eq_true h)
  · exact le_of_eq (beq_iff_eq.1 h)

theorem entry_better_false_le {D : ℕ} {a b : Entry D}
    (h : entry_better a b = false) : b.1.val ≤ a.1.val := by
  unfold entry_better at h
  rw [Bool.or_eq_false_iff] at h
  have := h.1
  rw [decide_eq_false_iff_not] at this
  omega

theorem pop_max_min {D : ℕ} : ∀ {l : List (Entry D)} {e : Entry D}
    {rest : List (Entry D)}, pop_max l = some (e, rest) →
    ∀ e' ∈ l, e.1.val ≤ e'.1.val := by
  intro l
  induction l with
  | nil =>
    intro e rest h
    simp [pop_max] at h
  | cons x xs ih =>
    intro e rest h e' he'
    cases hxs : pop_max xs with
    | none =>
      have hnil : xs = [] := pop_max_eq_none.mp hxs
      subst hnil
      simp only [pop_max, Option.some.injEq, Prod.mk.injEq] at h
      obtain ⟨rfl, -⟩ := h
      rcases List.mem_singleton.1 he' with rfl
      exact le_refl _
    | some p =>
      obtain ⟨m, rest'⟩ := p
      by_cases hb : entry_better m x
      · simp only [pop_max, hxs, hb, if_true, Option.some.injEq,
          Prod.mk.injEq] at h
        obtain ⟨rfl, -⟩ := h
        rcases List.mem_cons.1 he' with rfl | hmem
        · exact entry_better_le hb
        · exact ih hxs e' hmem
      · simp only [pop_max, hxs, hb, if_false, Bool.false_eq_true,
          Option.some.injEq, Prod.mk.injEq] at h
        obtain ⟨rfl, -⟩ := h
        rcases List.mem_cons.1 he' with rfl | hmem
        · exact le_refl _
        · exact le_trans (entry_better_false_le (Bool.eq_false_iff.2 hb))
            (ih hxs e' hmem)

/-- Source `HashMap::get` keyed by the raw cell array. -/
def vfind {D : ℕ} (v : VMap D) (l : List ℕ) : Option U64 :=
  (v.find? (fun p => p.1.val == l)).map (fun p => p.2)

/-- Source `HashMap::insert` (overwrite). -/
def v_insert {D : ℕ} (v : VMap D) (s : VState D) (c : U64) : VMap D :=
  (s, c) :: v.filter (fun p => !(p.1.val == s.val))

theorem find?_key_filter {D : ℕ} (v : VMap D) (s : VState D) {l : List ℕ}
    (hl : l ≠ s.val) :
    (v.filter (fun p => !(p.1.val == s.val))).find? (fun p => p.1.val == l) =
      v.find? (fun p => p.1.val == l) := by
  induction v with
  | nil => rfl
  | cons q rest ih =>
    rw [List.filter_cons]
    by_cases hq : q.1.val = s.val
    · rw [if_neg (by simp [hq])]
      rw [List.find?_cons_of_neg _ (by
        simp only [hq, beq_iff_eq]
        exact fun hc => hl hc.symm)]
      exact ih
    · rw [if_pos (by simp [hq])]
      by_cases hm : q.1.val = l
      · rw [List.find?_cons_of_pos _ (by simp [hm]),
          List.find?_cons_of_pos _ (by simp [hm])]
      · rw [List.find?_cons_of_neg _ (by simp [hm]),
          List.find?_cons_of_neg _ (by simp [hm])]
        exact ih

theorem vfind_insert {D : ℕ} (v : VMap D) (s : VState D) (c : U64)
    (l : List ℕ) :
    vfind (v_insert v s c) l = if l = s.val then some c else vfind v l := by
  unfold vfind v_insert
  by_cases hl : l = s.val
  · subst hl
    rw [if_pos rfl, List.find?_cons_of_pos _ (by simp)]
    rfl
  · rw [if_neg hl, List.find?_cons_of_neg _ (by
      simp only [beq_iff_eq]
      exact fun hc => hl hc.symm),
      find?_key_filter v s hl]

theorem valid_apply {D : ℕ} {s : List ℕ} (h : Valid D s) (m : ℕ × ℕ × ℕ) :
    Valid D (apply_move s m).1 :=
  ⟨by rw [length_apply_move]; exact h.1, cells_apply_move h.2 m⟩

/-- Source `u64::MAX` as a `u64`. -/
def U64MAXf : U64 := ⟨U64MAX, U64MAX_lt_W⟩

/-- The push loop of one expansion: for every generated move compute the
neighbor and its cost, and keep it when `cost + move_cost <
*visited.get(&new_state).unwrap_or(&u64::MAX)`. -/
def push_list {D : ℕ} (cost : U64) (st : VState D) (v' : VMap D) :
    List (Entry D) :=
  (next_moves D st.val).filterMap (fun m =>
    if h : cost.val + (apply_move st.val m).2 <
        ((vfind v' (apply_move st.val m).1).getD U64MAXf).val then
      some (⟨cost.val + (apply_move st.val m).2,
          lt_trans h ((vfind v' (apply_move st.val m).1).getD U64MAXf).isLt⟩,
        ⟨(apply_move st.val m).1, valid_apply st.2 m⟩)
    else none)

/-- The stale-entry check: `visited.get(&state)` holds a strictly smaller
cost than the popped one. -/
def stale {D : ℕ} (visited : VMap D) (st : VState D) (cost : U64) : Bool :=
  ((vfind visited st.val).map (fun prev => decide (prev.val < cost.val))).getD
    false

theorem stale_true_iff {D : ℕ} {visited : VMap D} {st : VState D} {cost : U64} :
    stale visited st cost = true ↔
      ∃ prev : U64, vfind visited st.val = some prev ∧ prev.val < cost.val := by
  unfold stale
  cases h : vfind visited st.val with
  | none => simp
  | some prev => simp [h]

theorem stale_false_le {D : ℕ} {visited : VMap D} {st : VState D} {cost : U64}
    (hs : stale visited st cost = false) {prev : U64}
    (h : vfind visited st.val = some prev) : cost.val ≤ prev.val := by
  unfold stale at hs
  rw [h] at hs
  simp only [Option.map_some', Option.getD_some, decide_eq_false_iff_not] at hs
  omega

/-! ### The termination measure -/

/-- Encode a state as a function into `Fin 5` (for the finiteness of the
state space). -/
def encode {D : ℕ} (s : VState D) (i : Fin (11 + 4 * D)) : Fin 5 :=
  ⟨cell s.val i.val, by
    have hlen := s.2.1
    have hi : i.val < s.val.length := by
      rw [hlen]
      exact i.isLt
    rw [cell_eq_getElem hi]
    exact s.2.2 _ (List.getElem_mem hi)⟩

/-- Decode such a function back to a cell list. -/
def decode (D : ℕ) (f : Fin (11 + 4 * D) → Fin 5) : List ℕ :=
  List.ofFn (fun i => (f i).val)

theorem decode_encode {D : ℕ} (s : VState D) : decode D (encode s) = s.val := by
  apply List.ext_getElem
  · simp [decode, s.2.1]
  · intro i h1 h2
    simp only [decode, List.getElem_ofFn, encode]
    exact cell_eq_getElem h2

theorem decode_inj {D : ℕ} {f g : Fin (11 + 4 * D) → Fin 5}
    (h : decode D f = decode D g) : f = g := by
  funext i
  have hf : i.val < (decode D f).length := by simp [decode]
  have hg : i.val < (decode D g).length := by simp [decode]
  have h1 : (decode D f)[i.val] = (decode D g)[i.val] := by
    congr 1
  apply Fin.ext
  simpa [decode, List.getElem_ofFn] using h1

/-- Residual potential of one map slot. -/
def phi : Option U64 → ℕ
  | none => W
  | some c => c.val

/-- Total residual potential of the best-cost table over the finite state
space. -/
def pot (D : ℕ) (v : VMap D) : ℕ :=
  ∑ f : Fin (11 + 4 * D) → Fin 5, phi (vfind v (decode D f))

/-- A heap entry is nonprogressive if the visited map already covers it. -/
def npE {D : ℕ} (v : VMap D) (e : Entry D) : Bool :=
  ((vfind v e.2.val).map (fun x => decide (x.val ≤ e.1.val))).getD false

/-- Number of nonprogressive heap entries. -/
def np (D : ℕ) (v : VMap D) (h : List (Entry D)) : ℕ := h.countP (npE v)

theorem pot_insert {D : ℕ} (v : VMap D) (s : VState D) (c : U64) :
    pot D (v_insert v s c) + phi (vfind v s.val) = pot D v + c.val := by
  unfold pot
  have hupd : (fun f => phi (vfind (v_insert v s c) (decode D f))) =
      Function.update (fun f => phi (vfind v (decode D f))) (encode s) c.val := by
    funext f
    rw [vfind_insert]
    by_cases hf : f = encode s
    · subst hf
      rw [decode_encode, if_pos rfl, Function.update_same]
      rfl
    · have hne : decode D f ≠ s.val := by
        intro hc
        exact hf (decode_inj (by rw [hc, decode_encode]))
      rw [if_neg hne, Function.update_noteq hf]
  rw [hupd, Finset.sum_update_of_mem (Finset.mem_univ _)]
  have hsplit : phi (vfind v s.val) +
      ∑ x ∈ Finset.univ.erase (encode s), phi (vfind v (decode D x)) =
      ∑ f : Fin (11 + 4 * D) → Fin 5, phi (vfind v (decode D f)) := by
    have := Finset.add_sum_erase Finset.univ
      (fun f => phi (vfind v (decode D f))) (Finset.mem_univ (encode s))
    simpa [decode_encode] using this
  rw [← Finset.erase_eq]
  omega

theorem pot_congr {D : ℕ} {v₁ v₂ : VMap D}
    (h : ∀ l, vfind v₁ l = vfind v₂ l) : pot D v₁ = pot D v₂ := by
  unfold pot
  exact Finset.sum_congr rfl (fun f _ => by rw [h])

theorem np_congr {D : ℕ} {v₁ v₂ : VMap D}
    (h : ∀ l, vfind v₁ l = vfind v₂ l) (hp : List (Entry D)) :
    np D v₁ hp = np D v₂ hp := by
  unfold np
  have : npE v₁ = npE v₂ := by
    funext e
    unfold npE
    rw [h]
  rw [this]

theorem np_push_zero {D : ℕ} (cost : U64) (st : VState D) (v' : VMap D) :
    np D v' (push_list cost st v') = 0 := by
  unfold np
  rw [List.countP_eq_zero]
  intro e he
  unfold push_list at he
  rw [List.mem_filterMap] at he
  obtain ⟨m, hm, hsome⟩ := he
  split_ifs at hsome with hguard
  · injection hsome with he
    subst he
    show ¬ ((vfind v' (apply_move st.val m).1).map
      (fun x => decide (x.val ≤ cost.val + (apply_move st.val m).2))).getD false
        = true
    cases hv : vfind v' (apply_move st.val m).1 with
    | none => simp
    | some vu =>
      rw [hv] at hguard
      simp only [Option.getD_some] at hguard
      simp only [Option.map_some', Option.getD_some, Bool.not_eq_true,
        decide_eq_false_iff_not]
      omega

theorem np_pop {D : ℕ} (visited : VMap D) {heap : List (Entry D)}
    {e : Entry D} {rest : List (Entry D)} (hpop : pop_max heap = some (e, rest)) :
    np D visited heap = np D visited rest + (if npE visited e then 1 else 0) := by
  unfold np
  rw [(pop_max_perm hpop).countP_eq, List.countP_cons]

/-- The search loop of `organizing_cost`: pop the maximal-priority entry,
drop it if stale, return its cost if the state is complete, otherwise record
it in the best-cost table and push every improving neighbor. -/
def loopGo (D : ℕ) (heap : List (Entry D)) (visited : VMap D) : Option ℕ :=
  match hpop : pop_max heap with
  | none => none
  | some ((cost, state), rest) =>
    if hstale : stale visited state cost = true then loopGo D rest visited
    else if is_complete D state.val then some cost.val
    else
      loopGo D (rest ++ push_list cost state (v_insert visited state cost))
        (v_insert visited state cost)
termination_by (pot D visited, np D visited heap, heap.length)
decreasing_by
  · have hnp := np_pop visited hpop
    have hE : npE visited (cost, state) = true := by
      unfold npE
      obtain ⟨prev, hfind, hlt⟩ := stale_true_iff.1 hstale
      rw [hfind]
      simp only [Option.map_some', Option.getD_some, decide_eq_true_eq]
      omega
    rw [hE, if_pos rfl] at hnp
    apply Prod.Lex.right
    apply Prod.Lex.left
    omega
  · cases hfind : vfind visited state.val with
    | none =>
      have hpi := pot_insert visited state cost
      rw [hfind] at hpi
      simp only [phi] at hpi
      apply Prod.Lex.left
      have := cost.isLt
      omega
    | some prev =>
      have hle : cost.val ≤ prev.val :=
        stale_false_le (Bool.eq_false_iff.2 hstale) hfind
      rcases Nat.lt_or_ge cost.val prev.val with hlt | hge
      · have hpi := pot_insert visited state cost
        rw [hfind] at hpi
        simp only [phi] at hpi
        apply Prod.Lex.left
        omega
      · have heq : prev = cost := Fin.ext (by omega)
        subst heq
        have hpteq : ∀ l, vfind (v_insert visited state prev) l =
            vfind visited l := by
          intro l
          rw [vfind_insert]
          split_ifs with hl
          · rw [hl, hfind]
          · rfl
        have hpe : pot D (v_insert visited state prev) = pot D visited :=
          pot_congr hpteq
        rw [hpe]
        apply Prod.Lex.right
        apply Prod.Lex.left
        have h1 : np D (v_insert visited state prev)
            (rest ++ push_list prev state (v_insert visited state prev)) =
            np D (v_insert visited state prev) rest := by
          unfold np
          rw [List.countP_append]
          have := np_push_zero prev state (v_insert visited state prev)
          unfold np at this
          omega
        have h2 : np D (v_insert visited state prev) rest =
            np D visited rest := np_congr hpteq rest
        have h3 := np_pop visited hpop
        have hE : npE visited (prev, state) = true := by
          unfold npE
          rw [hfind]
          simp
        rw [hE, if_pos rfl] at h3
        omega

/-- A fuel-indexed unrolling of the same search loop (`none` = out of fuel). -/
def run_fuel (D : ℕ) : ℕ → List (Entry D) → VMap D → Option (Option ℕ)
  | 0, _, _ => none
  | fuel + 1, heap, visited =>
    match pop_max heap with
    | none => some none
    | some ((cost, state), rest) =>
      if stale visited state cost = true then run_fuel D fuel rest visited
      else if is_complete D state.val then some (some cost.val)
      else run_fuel D fuel
        (rest ++ push_list cost state (v_insert visited state cost))
        (v_insert visited state cost)

/-- Source `organizing_cost`: uniform-cost search from the initial state; the heap
starts as `[(Reverse(0), 0, initial)]` and the best-cost table as
`{initial ↦ 0}`. -/
def organizing_cost (D : ℕ) (s : VState D) : Option ℕ :=
  loopGo D [(u0, s)] [(s, u0)]

theorem loopGo_none {D : ℕ} {heap : List (Entry D)} {visited : VMap D}
    (h : pop_max heap = none) : loopGo D heap visited = none := by
  rw [loopGo.eq_def]
  split
  · rfl
  · rename_i heq
    rw [h] at heq
    exact absurd heq (by simp)

theorem loopGo_stale {D : ℕ} {heap : List (Entry D)} {visited : VMap D}
    {cost : U64} {state : VState D} {rest : List (Entry D)}
    (h : pop_max heap = some ((cost, state), rest))
    (hs : stale visited state cost = true) :
    loopGo D heap visited = loopGo D rest visited := by
  rw [loopGo.eq_def]
  split
  · rename_i heq
    rw [h] at heq
    exact absurd heq (by simp)
  · rename_i cost' state' rest' heq
    rw [h] at heq
    obtain ⟨⟨h1, h2⟩, h3⟩ : (cost' = cost ∧ state' = state) ∧ rest' = rest := by
      simpa [Prod.ext_iff] using heq.symm
    subst h1
    subst h2
    subst h3
    rw [dif_pos hs]

theorem loopGo_complete {D : ℕ} {heap : List (Entry D)} {visited : VMap D}
    {cost : U64} {state : VState D} {rest : List (Entry D)}
    (h : pop_max heap = some ((cost, state), rest))
    (hs : stale visited state cost = false)
    (hc : is_complete D state.val = true) :
    loopGo D heap visited = some cost.val := by
  rw [loopGo.eq_def]
  split
  · rename_i heq
    rw [h] at heq
    exact absurd heq (by simp)
  · rename_i cost' state' rest' heq
    rw [h] at heq
    obtain ⟨⟨h1, h2⟩, h3⟩ : (cost' = cost ∧ state' = state) ∧ rest' = rest := by
      simpa [Prod.ext_iff] using heq.symm
    subst h1
    subst h2
    subst h3
    rw [dif_neg (by rw [hs]; exact Bool.false_ne_true), if_pos hc]

theorem loopGo_expand {D : ℕ} {heap : List (Entry D)} {visited : VMap D}
    {cost : U64} {state : VState D} {rest : List (Entry D)}
    (h : pop_max heap = some ((cost, state), rest))
    (hs : stale visited state cost = false)
    (hc : is_complete D state.val = false) :
    loopGo D heap visited =
      loopGo D (rest ++ push_list cost state (v_insert visited state cost))
        (v_insert visited state cost) := by
  rw [loopGo.eq_def]
  split
  · rename_i heq
    rw [h] at heq
    exact absurd heq (by simp)
  · rename_i cost' state' rest' heq
    rw [h] at heq
    obtain ⟨⟨h1, h2⟩, h3⟩ : (cost' = cost ∧ state' = state) ∧ rest' = rest := by
      simpa [Prod.ext_iff] using heq.symm
    subst h1
    subst h2
    subst h3
    rw [dif_neg (by rw [hs]; exact Bool.false_ne_true),
      if_neg (by rw [hc]; exact Bool.false_ne_true)]

/-- The loop always reaches its answer in finitely many iterations. -/
theorem run_fuel_complete (D : ℕ) (heap : List (Entry D)) (visited : VMap D) :
    ∃ n, run_fuel D n heap visited = some (loopGo D heap visited) := by
  refine loopGo.induct D
    (fun heap visited => ∃ n, run_fuel D n heap visited =
      some (loopGo D heap visited)) ?_ ?_ ?_ ?_ heap visited
  · intro heap visited h
    refine ⟨1, ?_⟩
    simp only [run_fuel, h]
    rw [loopGo_none h]
  · intro heap visited cost state rest h hs ih
    obtain ⟨n, hn⟩ := ih
    refine ⟨n + 1, ?_⟩
    simp only [run_fuel, h, hs, if_true]
    rw [hn, loopGo_stale h hs]
  · intro heap visited cost state rest h hs hc
    refine ⟨1, ?_⟩
    rw [Bool.not_eq_true] at hs
    simp only [run_fuel, h, hs, Bool.false_eq_true, if_false, hc, if_true]
    rw [loopGo_complete h hs hc]
  · intro heap visited cost state rest h hs hc ih
    obtain ⟨n, hn⟩ := ih
    refine ⟨n + 1, ?_⟩
    rw [Bool.not_eq_true] at hs hc
    simp only [run_fuel, h, hs, Bool.false_eq_true, if_false, hc]
    rw [hn, loopGo_expand h hs hc]

theorem run_fuel_mono {D : ℕ} : ∀ {n : ℕ} {heap : List (Entry D)}
    {visited : VMap D} {r : Option ℕ}, run_fuel D n heap visited = some r →
    ∀ {m : ℕ}, n ≤ m → run_fuel D m heap visited = some r := by
  intro n
  induction n with
  | zero =>
    intro heap visited r h
    simp [run_fuel] at h
  | succ n ih =>
    intro heap visited r h m hm
    obtain ⟨m', rfl⟩ : ∃ m', m = m' + 1 := ⟨m - 1, by omega⟩
    simp only [run_fuel] at h ⊢
    cases hpop : pop_max heap with
    | none =>
      rw [hpop] at h
      exact h
    | some p =>
      obtain ⟨⟨cost, state⟩, rest⟩ := p
      rw [hpop] at h
      have h' : (if stale visited state cost = true then
          run_fuel D n rest visited
          else if is_complete D state.val = true then some (some cost.val)
          else run_fuel D n
            (rest ++ push_list cost state (v_insert visited state cost))
            (v_insert visited state cost)) = some r := h
      show (if stale visited state cost = true then
          run_fuel D m' rest visited
          else if is_complete D state.val = true then some (some cost.val)
          else run_fuel D m'
            (rest ++ push_list cost state (v_insert visited state cost))
            (v_insert visited state cost)) = some r
      by_cases hs : stale visited state cost = true
      · rw [if_pos hs] at h' ⊢
        exact ih h' (by omega)
      · rw [if_neg hs] at h' ⊢
        by_cases hc : is_complete D state.val = true
        · rw [if_pos hc] at h' ⊢
          exact h'
        · rw [if_neg hc] at h' ⊢
          exact ih h' (by omega)

theorem loopGo_eq_of_run_fuel {D : ℕ} {n : ℕ} {heap : List (Entry D)}
    {visited : VMap D} {r : Option ℕ}
    (h : run_fuel D n heap visited = some r) : loopGo D heap visited = r := by
  obtain ⟨n', hn'⟩ := run_fuel_complete D heap visited
  have h1 := run_fuel_mono h (le_max_left n n')
  have h2 := run_fuel_mono hn' (le_max_right n n')
  rw [h1] at h2
  exact (Option.some.inj h2).symm

/-! ## C8: termination of the search -/

/-- C8.  For every initial state the search terminates: there is a finite
number of loop iterations after which the fuel-indexed unrolling of the
search loop delivers the final answer (`some cost` or `none`), and
`organizing_cost` equals that answer — the loop never runs forever. -/
theorem organizing_cost_terminates (D : ℕ) (s : VState D) :
    ∃ n r, run_fuel D n [(u0, s)] [(s, u0)] = some r ∧
      organizing_cost D s = r := by
  obtain ⟨n, hn⟩ := run_fuel_complete D [(u0, s)] [(s, u0)]
  exact ⟨n, _, hn, rfl⟩

/-! ## C1: the search computes the minimum organizing cost -/

/-- Source `c` is the total cost of some generated-move sequence from `s₀` to a
complete state. -/
def Sol (D : ℕ) (s₀ : List ℕ) (c : ℕ) : Prop :=
  ∃ t, RchF D s₀ c t ∧ is_complete D t = true

/-- Every heap entry is a real reachable (state, cost) pair. -/
def HeapSound (D : ℕ) (s₀ : List ℕ) (heap : List (Entry D)) : Prop :=
  ∀ e ∈ heap, RchF D s₀ e.1.val e.2.val

/-- Every heap entry's cost is below `u64::MAX`. -/
def HeapBnd {D : ℕ} (heap : List (Entry D)) : Prop :=
  ∀ e ∈ heap, e.1.val < U64MAX

/-- State `x` has been expanded at base cost `v`: it is not complete, and
each of its out-edges is covered by the heap or by the best-cost table. -/
def Processed (D : ℕ) (heap : List (Entry D)) (visited : VMap D)
    (x : List ℕ) (v : ℕ) : Prop :=
  is_complete D x = false ∧ ∀ m ∈ next_moves D x,
    v + (apply_move x m).2 < U64MAX →
      (∃ e ∈ heap, e.2.val = (apply_move x m).1 ∧
        e.1.val ≤ v + (apply_move x m).2) ∨
      ∃ vu : U64, vfind visited (apply_move x m).1 = some vu ∧
        vu.val ≤ v + (apply_move x m).2

/-- The expansion invariant: every best-cost entry is either an expanded
state, or still awaits expansion as a heap entry of no greater cost. -/
def ExpInv (D : ℕ) (heap : List (Entry D)) (visited : VMap D) : Prop :=
  ∀ l (v : U64), vfind visited l = some v →
    Processed D heap visited l v.val ∨
      ∃ e ∈ heap, e.2.val = l ∧ e.1.val ≤ v.val

theorem mem_rest_of_mem {D : ℕ} {heap : List (Entry D)} {e₀ : Entry D}
    {rest : List (Entry D)} {e : Entry D}
    (hpop : pop_max heap = some (e₀, rest)) (he : e ∈ heap) (hne : e ≠ e₀) :
    e ∈ rest := by
  have := (pop_max_perm hpop).mem_iff.1 he
  rcases List.mem_cons.1 this with rfl | h
  · exact absurd rfl hne
  · exact h

theorem push_list_mem_of_guard {D : ℕ} (cost : U64) (st : VState D)
    (v' : VMap D) {m : ℕ × ℕ × ℕ} (hm : m ∈ next_moves D st.val)
    (hg : cost.val + (apply_move st.val m).2 <
      ((vfind v' (apply_move st.val m).1).getD U64MAXf).val) :
    ∃ e ∈ push_list cost st v', e.2.val = (apply_move st.val m).1 ∧
      e.1.val = cost.val + (apply_move st.val m).2 := by
  unfold push_list
  exact ⟨_, List.mem_filterMap.2 ⟨m, hm, dif_pos hg⟩, rfl, rfl⟩

theorem mem_push_list {D : ℕ} {cost : U64} {st : VState D} {v' : VMap D}
    {e : Entry D} (he : e ∈ push_list cost st v') :
    ∃ m ∈ next_moves D st.val,
      e.1.val = cost.val + (apply_move st.val m).2 ∧
      e.2.val = (apply_move st.val m).1 ∧
      e.1.val < ((vfind v' (apply_move st.val m).1).getD U64MAXf).val := by
  unfold push_list at he
  rw [List.mem_filterMap] at he
  obtain ⟨m, hm, hsome⟩ := he
  split_ifs at hsome with hg
  injection hsome with he'
  subst he'
  exact ⟨m, hm, rfl, rfl, hg⟩

theorem getD_val_le_U64MAX {o : Option U64} : (o.getD U64MAXf).val ≤ U64MAX := by
  have h := (o.getD U64MAXf).isLt
  have : W = U64MAX + 1 := by norm_num [W, U64MAX]
  omega

/-- The key covering lemma: along any reach-path from a visited state to a
complete state within budget, the expansion invariant produces a heap entry
that can still reach the target within budget. -/
theorem cover_of_visited {D : ℕ} {heap : List (Entry D)} {visited : VMap D}
    (hinv : ExpInv D heap visited) {c' : ℕ} (hc' : c' < U64MAX) :
    ∀ {x : List ℕ} {δ : ℕ} {t : List ℕ}, RchF D x δ t →
      is_complete D t = true → ∀ {v : U64},
      vfind visited x = some v → v.val + δ ≤ c' →
      ∃ e ∈ heap, ∃ δ', RchF D e.2.val δ' t ∧ e.1.val + δ' ≤ c' := by
  intro x δ t hreach
  induction hreach with
  | refl s =>
    intro hct v hfind hle
    rcases hinv s v hfind with ⟨hnc, -⟩ | ⟨e, he, heq, hev⟩
    · rw [hct] at hnc
      exact absurd hnc (by simp)
    · exact ⟨e, he, 0, by rw [heq]; exact RchF.refl s, by omega⟩
  | @head s m c t' hm hrest ih =>
    intro hct v hfind hle
    rcases hinv s v hfind with ⟨hnc, hedges⟩ | ⟨e, he, heq, hev⟩
    · have hltw : v.val + (apply_move s m).2 < U64MAX := by omega
      rcases hedges m hm hltw with ⟨e, he, heq, hev⟩ | ⟨vu, hvu, hvule⟩
      · refine ⟨e, he, c, ?_, by omega⟩
        rw [heq]
        exact hrest
      · exact ih hct hvu (by omega)
    · refine ⟨e, he, (apply_move s m).2 + c, ?_, by omega⟩
      rw [heq]
      exact RchF.head hm hrest

theorem expinv_stale {D : ℕ} {heap : List (Entry D)} {visited : VMap D}
    {cost : U64} {state : VState D} {rest : List (Entry D)}
    (hpop : pop_max heap = some ((cost, state), rest))
    (hstale : stale visited state cost = true)
    (hinv : ExpInv D heap visited) : ExpInv D rest visited := by
  obtain ⟨prev, hprev, hlt⟩ := stale_true_iff.1 hstale
  intro l v hfind
  rcases hinv l v hfind with ⟨hnc, hedges⟩ | ⟨e, he, heq, hev⟩
  · left
    refine ⟨hnc, ?_⟩
    intro m hm hltw
    rcases hedges m hm hltw with ⟨e, he, heq, hev⟩ | hvu
    · by_cases hee : e = (cost, state)
      · right
        refine ⟨prev, ?_, ?_⟩
        · rw [← heq, hee]
          exact hprev
        · rw [hee] at hev
          have : prev.val < cost.val := hlt
          simp only at hev
          omega
      · exact Or.inl ⟨e, mem_rest_of_mem hpop he hee, heq, hev⟩
    · exact Or.inr hvu
  · by_cases hee : e = (cost, state)
    · exfalso
      rw [hee] at heq hev
      simp only at heq hev
      rw [heq, hfind] at hprev
      injection hprev with hpe
      subst hpe
      omega
    · exact Or.inr ⟨e, mem_rest_of_mem hpop he hee, heq, hev⟩

theorem expinv_expand {D : ℕ} {heap : List (Entry D)} {visited : VMap D}
    {cost : U64} {state : VState D} {rest : List (Entry D)}
    (hpop : pop_max heap = some ((cost, state), rest))
    (hstale : stale visited state cost = false)
    (hcomp : is_complete D state.val = false)
    (hinv : ExpInv D heap visited) :
    ExpInv D (rest ++ push_list cost state (v_insert visited state cost))
      (v_insert visited state cost) := by
  intro l v hfind
  rw [vfind_insert] at hfind
  by_cases hl : l = state.val
  · rw [if_pos hl] at hfind
    injection hfind with hveq
    subst hveq
    subst hl
    left
    refine ⟨hcomp, ?_⟩
    intro m hm hltw
    by_cases hg : cost.val + (apply_move state.val m).2 <
        ((vfind (v_insert visited state cost) (apply_move state.val m).1).getD
          U64MAXf).val
    · obtain ⟨e, he, heq, hev⟩ :=
        push_list_mem_of_guard cost state (v_insert visited state cost) hm hg
      exact Or.inl ⟨e, List.mem_append_right _ he, heq, le_of_eq hev⟩
    · cases hvu : vfind (v_insert visited state cost)
          (apply_move state.val m).1 with
      | none =>
        exfalso
        rw [hvu] at hg
        simp only [Option.getD_none] at hg
        exact hg (by
          have : U64MAXf.val = U64MAX := rfl
          omega)
      | some vu =>
        rw [hvu] at hg
        simp only [Option.getD_some] at hg
        exact Or.inr ⟨vu, rfl, by omega⟩
  · rw [if_neg hl] at hfind
    rcases hinv l v hfind with ⟨hnc, hedges⟩ | ⟨e, he, heq, hev⟩
    · left
      refine ⟨hnc, ?_⟩
      intro m hm hltw
      rcases hedges m hm hltw with ⟨e, he, heq, hev⟩ | ⟨vu, hvu, hvule⟩
      · by_cases hee : e = (cost, state)
        · right
          refine ⟨cost, ?_, ?_⟩
          · rw [← heq, hee]
            show vfind (v_insert visited state cost) state.val = some cost
            rw [vfind_insert, if_pos rfl]
          · rw [hee] at hev
            simp only at hev
            exact hev
        · exact Or.inl ⟨e, List.mem_append_left _
            (mem_rest_of_mem hpop he hee), heq, hev⟩
      · by_cases hu : (apply_move l m).1 = state.val
        · right
          refine ⟨cost, ?_, ?_⟩
          · rw [hu, vfind_insert, if_pos rfl]
          · rw [hu] at hvu
            have := stale_false_le hstale hvu
            omega
        · exact Or.inr ⟨vu, by rw [vfind_insert, if_neg hu]; exact hvu, hvule⟩
    · by_cases hee : e = (cost, state)
      · exfalso
        rw [hee] at heq
        simp only at heq
        exact hl heq.symm
      · exact Or.inr ⟨e, List.mem_append_left _
          (mem_rest_of_mem hpop he hee), heq, hev⟩

theorem heap_sound_rest {D : ℕ} {s₀ : List ℕ} {heap : List (Entry D)}
    {e₀ : Entry D} {rest : List (Entry D)}
    (hpop : pop_max heap = some (e₀, rest)) (hs : HeapSound D s₀ heap) :
    HeapSound D s₀ rest := fun e he =>
  hs e ((pop_max_perm hpop).mem_iff.2 (List.mem_cons_of_mem _ he))

theorem heap_sound_popped {D : ℕ} {s₀ : List ℕ} {heap : List (Entry D)}
    {e₀ : Entry D} {rest : List (Entry D)}
    (hpop : pop_max heap = some (e₀, rest)) (hs : HeapSound D s₀ heap) :
    RchF D s₀ e₀.1.val e₀.2.val :=
  hs e₀ ((pop_max_perm hpop).mem_iff.2 (List.mem_cons_self _ _))

/-- Soundness: whatever the loop returns is the cost of a real move sequence
to a complete state. -/
theorem loopGo_sound {D : ℕ} (s₀ : List ℕ) :
    ∀ heap visited, HeapSound D s₀ heap →
      ∀ r, loopGo D heap visited = some r → Sol D s₀ r := by
  refine loopGo.induct D (fun heap visited => HeapSound D s₀ heap →
    ∀ r, loopGo D heap visited = some r → Sol D s₀ r) ?_ ?_ ?_ ?_
  · intro heap visited h hs r hr
    rw [loopGo_none h] at hr
    exact Option.noConfusion hr
  · intro heap visited cost state rest h hstale ih hs r hr
    rw [loopGo_stale h hstale] at hr
    exact ih (heap_sound_rest h hs) r hr
  · intro heap visited cost state rest h hstale hc hs r hr
    rw [loopGo_complete h (Bool.eq_false_iff.2 hstale) hc] at hr
    injection hr with hre
    subst hre
    exact ⟨state.val, heap_sound_popped h hs, hc⟩
  · intro heap visited cost state rest h hstale hc ih hs r hr
    rw [Bool.not_eq_true] at hstale hc
    rw [loopGo_expand h hstale hc] at hr
    refine ih ?_ r hr
    intro e he
    rcases List.mem_append.1 he with he' | he'
    · exact hs e ((pop_max_perm h).mem_iff.2 (List.mem_cons_of_mem _ he'))
    · obtain ⟨m, hm, hceq, hseq, -⟩ := mem_push_list he'
      have hsound := heap_sound_popped h hs
      have := RchF.snoc hsound hm
      rw [hceq, hseq]
      exact this

/-- Bound: whatever the loop returns is below `u64::MAX`. -/
theorem loopGo_lt {D : ℕ} :
    ∀ heap visited, HeapBnd heap →
      ∀ r, loopGo D heap visited = some r → r < U64MAX := by
  refine loopGo.induct D (fun heap visited => HeapBnd heap →
    ∀ r, loopGo D heap visited = some r → r < U64MAX) ?_ ?_ ?_ ?_
  · intro heap visited h hb r hr
    rw [loopGo_none h] at hr
    exact Option.noConfusion hr
  · intro heap visited cost state rest h hstale ih hb r hr
    rw [loopGo_stale h hstale] at hr
    refine ih (fun e he => hb e ?_) r hr
    exact (pop_max_perm h).mem_iff.2 (List.mem_cons_of_mem _ he)
  · intro heap visited cost state rest h hstale hc hb r hr
    rw [loopGo_complete h (Bool.eq_false_iff.2 hstale) hc] at hr
    injection hr with hre
    subst hre
    exact hb (cost, state) ((pop_max_perm h).mem_iff.2 (List.mem_cons_self _ _))
  · intro heap visited cost state rest h hstale hc ih hb r hr
    rw [Bool.not_eq_true] at hstale hc
    rw [loopGo_expand h hstale hc] at hr
    refine ih ?_ r hr
    intro e he
    rcases List.mem_append.1 he with he' | he'
    · exact hb e ((pop_max_perm h).mem_iff.2 (List.mem_cons_of_mem _ he'))
    · obtain ⟨m, hm, hceq, hseq, hlt⟩ := mem_push_list he'
      have := getD_val_le_U64MAX (o := vfind (v_insert visited state cost)
        (apply_move state.val m).1)
      omega

/-- Completeness/optimality: if some heap entry can still reach a complete
state within budget `c' < u64::MAX`, the loop returns a result `≤ c'`. -/
theorem loopGo_reaches {D : ℕ} {t : List ℕ} (hct : is_complete D t = true)
    {c' : ℕ} (hc' : c' < U64MAX) :
    ∀ heap visited, ExpInv D heap visited →
      (∃ e ∈ heap, ∃ δ, RchF D e.2.val δ t ∧ e.1.val + δ ≤ c') →
      ∃ r, loopGo D heap visited = some r ∧ r ≤ c' := by
  refine loopGo.induct D (fun heap visited => ExpInv D heap visited →
    (∃ e ∈ heap, ∃ δ, RchF D e.2.val δ t ∧ e.1.val + δ ≤ c') →
    ∃ r, loopGo D heap visited = some r ∧ r ≤ c') ?_ ?_ ?_ ?_
  · intro heap visited h hinv hcov
    obtain ⟨e, he, -⟩ := hcov
    rw [pop_max_eq_none.1 h] at he
    exact absurd he (List.not_mem_nil e)
  · intro heap visited cost state rest h hstale ih hinv hcov
    rw [loopGo_stale h hstale]
    refine ih (expinv_stale h hstale hinv) ?_
    obtain ⟨e, he, δ, hr, hle⟩ := hcov
    by_cases hee : e = (cost, state)
    · obtain ⟨prev, hprev, hlt⟩ := stale_true_iff.1 hstale
      subst hee
      exact cover_of_visited (expinv_stale h hstale hinv) hc' hr hct hprev
        (by simp only at hle; omega)
    · exact ⟨e, mem_rest_of_mem h he hee, δ, hr, hle⟩
  · intro heap visited cost state rest h hstale hc hinv hcov
    rw [Bool.not_eq_true] at hstale
    refine ⟨cost.val, loopGo_complete h hstale hc, ?_⟩
    obtain ⟨e, he, δ, hr, hle⟩ := hcov
    have := pop_max_min h e he
    simp only at this
    omega
  · intro heap visited cost state rest h hstale hc ih hinv hcov
    rw [Bool.not_eq_true] at hstale hc
    rw [loopGo_expand h hstale hc]
    refine ih (expinv_expand h hstale hc hinv) ?_
    obtain ⟨e, he, δ, hr, hle⟩ := hcov
    by_cases hee : e = (cost, state)
    · subst hee
      refine cover_of_visited (expinv_expand h hstale hc hinv) hc' hr hct
        (v := cost) ?_ (by simp only at hle; omega)
      rw [vfind_insert, if_pos rfl]
    · exact ⟨e, List.mem_append_left _ (mem_rest_of_mem h he hee), δ, hr, hle⟩

theorem expinv_init {D : ℕ} (s : VState D) : ExpInv D [(u0, s)] [(s, u0)] := by
  intro l v hfind
  right
  unfold vfind at hfind
  by_cases hl : s.val = l
  · rw [List.find?_cons_of_pos _ (by simp [hl])] at hfind
    simp only [Option.map_some'] at hfind
    injection hfind with hv
    exact ⟨(u0, s), List.mem_singleton.2 rfl, hl, le_of_eq (by rw [hv])⟩
  · rw [List.find?_cons_of_neg _ (by simp [hl])] at hfind
    simp at hfind

/-- C1 (with the two caveats forced by the machine arithmetic of the source:
states are legal `State<N>` values, and — because the push guard compares
against the `u64::MAX` sentinel — solvable instances are assumed to admit a
solution cheaper than `u64::MAX`).  `organizing_cost` returns `none` iff no
generated-move sequence reaches a complete state, and whenever it returns
`some c`, `c` is the cost of such a sequence and no sequence is cheaper. -/
theorem organizing_cost_spec {D : ℕ} (s : VState D)
    (hsmall : ∀ c, Sol D s.val c → ∃ c', Sol D s.val c' ∧ c' < U64MAX) :
    (organizing_cost D s = none ↔ ∀ c, ¬Sol D s.val c) ∧
      ∀ c, organizing_cost D s = some c →
        Sol D s.val c ∧ ∀ c', Sol D s.val c' → c ≤ c' := by
  have hs_init : HeapSound D s.val [(u0, s)] := by
    intro e he
    rcases List.mem_singleton.1 he with rfl
    exact RchF.refl s.val
  have hb_init : HeapBnd [(u0, s)] := by
    intro e he
    rcases List.mem_singleton.1 he with rfl
    show (0 : ℕ) < U64MAX
    norm_num [U64MAX]
  have hsound : ∀ r, organizing_cost D s = some r → Sol D s.val r :=
    fun r hr => loopGo_sound s.val [(u0, s)] [(s, u0)] hs_init r hr
  have hbnd : ∀ r, organizing_cost D s = some r → r < U64MAX :=
    fun r hr => loopGo_lt [(u0, s)] [(s, u0)] hb_init r hr
  have hreach : ∀ c', Sol D s.val c' → c' < U64MAX →
      ∃ r, organizing_cost D s = some r ∧ r ≤ c' := by
    rintro c' ⟨t, hrch, hcomp⟩ hsm
    exact loopGo_reaches hcomp hsm [(u0, s)] [(s, u0)] (expinv_init s)
      ⟨(u0, s), List.mem_singleton.2 rfl, c', hrch, by
        show u0.val + c' ≤ c'
        simp [u0]⟩
  constructor
  · constructor
    · intro hnone c hSol
      obtain ⟨c'', hSol'', hlt⟩ := hsmall c hSol
      obtain ⟨r, hr, -⟩ := hreach c'' hSol'' hlt
      rw [hnone] at hr
      exact Option.noConfusion hr
    · intro hno
      cases hoc : organizing_cost D s with
      | none => rfl
      | some r => exact absurd (hsound r hoc) (hno r)
  · intro c hc
    refine ⟨hsound c hc, ?_⟩
    intro c' hSol'
    by_cases hlt : c' < U64MAX
    · obtain ⟨r, hr, hrle⟩ := hreach c' hSol' hlt
      rw [hc] at hr
      injection hr with hre
      omega
    · have := hbnd c hc
      omega

/-- C1 witness: on the trivial depth-0 board (no rooms, empty hallway) the
smallness hypothesis holds (cost 0 solves it) and the specification applies. -/
theorem organizing_cost_spec_witness :
    (∀ c, Sol 0 (List.replicate 11 0) c →
      ∃ c', Sol 0 (List.replicate 11 0) c' ∧ c' < U64MAX) ∧
      ((organizing_cost 0 ⟨List.replicate 11 0, by decide⟩ = none ↔
          ∀ c, ¬Sol 0 (List.replicate 11 0) c) ∧
        ∀ c, organizing_cost 0 ⟨List.replicate 11 0, by decide⟩ = some c →
          Sol 0 (List.replicate 11 0) c ∧
            ∀ c', Sol 0 (List.replicate 11 0) c' → c ≤ c') := by
  have hsm : ∀ c, Sol 0 (List.replicate 11 0) c →
      ∃ c', Sol 0 (List.replicate 11 0) c' ∧ c' < U64MAX :=
    fun _ _ => ⟨0, ⟨List.replicate 11 0, RchF.refl _, by decide⟩,
      by norm_num [U64MAX]⟩
  exact ⟨hsm, organizing_cost_spec ⟨List.replicate 11 0, by decide⟩ hsm⟩

end Day23
